import Mathlib

set_option maxHeartbeats 1000000

/-!
Verification development for the uniformly partitioned frequency-domain
convolution engine in `src/partitioned_convolution.py`.

The program is embedded shallowly over an abstract commutative ring `R`
standing for the complex single-precision scalars of the source
(`complex64`); exact ring arithmetic models the ideal values that the
floating-point FFT approximates ("within FFT roundoff" in the spec).
The forward real-to-complex FFT root `e^(-2*pi*i/N)` is an abstract ring
element `w`; its defining properties (`w^N = 1`, orthogonality of the
character sums, invertibility of `N`) are hypotheses of the theorems, and
are discharged on computable cyclotomic models of the complex numbers
(`Quad` below) in the witnesses.

Arrays are embedded as functions on `Fin`-indexed shapes, mirroring the
logical numpy shapes of the source; one auxiliary `List`-based embedding of
`__create_filter_blocks__` keeps the numpy shape data observable, because
one claim is about the stored axis order of the filter-spectrum table.
-/

/-- Number of frequency bins of a real-to-complex FFT of length `n`:
`fft_size // 2 + 1` in the source. -/
def num_bins (n : ℕ) : ℕ := n / 2 + 1

/-- Output length of `torch.fft.irfft` with default length argument applied to
`num_bins n` frequency bins: `2 * (num_bins n - 1)`.  This equals `n` exactly
when `n` is even. -/
def irfft_len (n : ℕ) : ℕ := 2 * (num_bins n - 1)

section DFT

variable {R : Type} [CommRing R]

/-- Power of the FFT root `w` with the exponent reduced modulo `n`.  For an
`n`-th root of unity `w` this is the mathematical power function on integer
exponents. -/
def wpow (n : ℕ) (w : R) (z : ℤ) : R := w ^ (z % (n : ℤ)).toNat

/-- Full length-`n` discrete Fourier transform with root `w` (numpy/torch
forward convention: bin `m` sums `v t * w^(m*t)` with `w = e^(-2*pi*i/n)`). -/
def dft (n : ℕ) (w : R) (v : Fin n → R) : Fin n → R :=
  fun m => ∑ t : Fin n, v t * wpow n w (m.val * t.val)

/-- Inverse length-`n` discrete Fourier transform with root `w` and scalar
`invN` standing for `1/n`. -/
def idft (n : ℕ) (w : R) (invN : R) (X : Fin n → R) : Fin n → R :=
  fun j => invN * ∑ m : Fin n, X m * wpow n w (-((m.val * j.val : ℕ) : ℤ))

/-- Real-to-complex FFT of a length-`fs` buffer: the first `num_bins fs` bins
of the full DFT.  This embeds `torch.fft.rfft` / `np.fft.rfft`. -/
def rfft_bins (fs : ℕ) (w : R) (v : Fin fs → R) : Fin (num_bins fs) → R :=
  fun m => ∑ t : Fin fs, v t * wpow fs w (m.val * t.val)

/-- Hermitian extension of `M` stored bins to a full length-`L` spectrum:
bin `m < M` is stored, bin `m ≥ M` is the conjugate of bin `L - m`.  This is
the half-spectrum convention of the complex-to-real inverse FFT.  (The final
branch is never taken for the actual shapes `M = num_bins L`.) -/
def herm_ext (M L : ℕ) (conj : R →+* R) (Y : Fin M → R) (m : ℕ) : R :=
  if h : m < M then Y ⟨m, h⟩
  else if h2 : L - m < M then conj (Y ⟨L - m, h2⟩) else 0

/-- Embedding of `torch.fft.irfft(Y)` with default output length, applied to
`num_bins fs` bins: inverse DFT of length `irfft_len fs` of the Hermitian
extension, with root `u` standing for `e^(-2*pi*i/irfft_len fs)` and scalar
`invL` standing for `1/irfft_len fs`. -/
def irfft_torch (fs : ℕ) (u invL : R) (conj : R →+* R)
    (Y : Fin (num_bins fs) → R) : Fin (irfft_len fs) → R :=
  fun j => invL * ∑ m : Fin (irfft_len fs),
    herm_ext (num_bins fs) (irfft_len fs) conj Y m.val *
      wpow (irfft_len fs) u (-((m.val * j.val : ℕ) : ℤ))

/-- The length-`fs` inverse real-to-complex FFT of `num_bins fs` bins, as the
spec's Output Reconstructor describes it ("compute the inverse real-to-complex
FFT of length `N`"): inverse DFT of length `fs` of the Hermitian extension,
with root `w` standing for `e^(-2*pi*i/fs)` and `invN` for `1/fs`.  It is the
spec-side counterpart of `irfft_torch` and coincides with it exactly when
`fs` is even. -/
def spec_irfft_n (fs : ℕ) (w invN : R) (conj : R →+* R)
    (Y : Fin (num_bins fs) → R) : Fin fs → R :=
  fun j => invN * ∑ m : Fin fs,
    herm_ext (num_bins fs) fs conj Y m.val * wpow fs w (-((m.val * j.val : ℕ) : ℤ))

/-- Length-`n` circular convolution (index arithmetic in `Fin n`). -/
def circ_conv (n : ℕ) (a b : Fin n → R) : Fin n → R :=
  fun j => ∑ t : Fin n, a t * b (j - t)

end DFT

/-- Bundled abstract FFT scalars used by the engine embedding: `w` is the
forward root `e^(-2*pi*i/fft_size)`, `u` the inverse-transform root
`e^(-2*pi*i/irfft_len fft_size)`, `invL` the scalar `1/irfft_len fft_size`,
and `conj` complex conjugation. -/
structure FFTData (R : Type) [CommRing R] where
  w : R
  u : R
  invL : R
  conj : R →+* R

/-- Element dtype tags of the arrays handed to `convolve`.  The source accepts
`torch.float32` directly and converts `np.float32`; everything else raises. -/
inductive Dtype
  | float32_torch
  | float32_np
  | float64
  | other
deriving DecidableEq

/-- A raw array argument handed to `convolve`: dtype tag, logical shape, and a
total accessor for the entries (row-major; a 1-D array stores its entries in
row `0`, which is also what `reshape(1, -1)` produces). -/
structure RawSignal (R : Type) where
  dtype : Dtype
  dims : List ℕ
  data : ℕ → ℕ → R

/-- The mutable state of a `PartitionedConvolution` engine between `convolve`
calls: the filter-spectrum table `filters_fd` (logical numpy shape
`(C, num_bins, K)`), the time-domain input buffer (`(Cin, fft_size)`), the
frequency-domain delay line `fdl` (`(Cin, num_bins, K)`) and the ring cursor. -/
structure PCState (R : Type) (C Cin fs K : ℕ) where
  filters_fd : Fin C → Fin (num_bins fs) → Fin K → R
  input_buffer_td : Fin Cin → Fin fs → R
  fdl : Fin Cin → Fin (num_bins fs) → Fin K → R
  fdl_cursor : ℕ

instance {R : Type} {C Cin fs K : ℕ} [DecidableEq R] :
    DecidableEq (PCState R C Cin fs K) := fun a b =>
  decidable_of_iff
    (a.filters_fd = b.filters_fd ∧ a.input_buffer_td = b.input_buffer_td ∧
      a.fdl = b.fdl ∧ a.fdl_cursor = b.fdl_cursor) (by
    constructor
    · rintro ⟨h1, h2, h3, h4⟩
      cases a
      cases b
      simp_all
    · rintro rfl
      exact ⟨rfl, rfl, rfl, rfl⟩)

section Engine

variable {R : Type} [CommRing R]

/-- Embedding of the numba kernel `cpu_multiply` (matched mode, `Cin = C`):
for each output channel and bin, sum over partitions `k` of
`filters_fd[:, :, k] * fdl[:, :, (K + (fdl_cursor - k)) % K]`, where the ring
position is computed exactly as in the source.  The `temp_buffer` of the
source only stages the `K` products that `.sum(axis=0)` adds up, so the sum
over `k` embeds it faithfully. -/
def cpu_multiply {C M K : ℕ} (filters_fd : Fin C → Fin M → Fin K → R)
    (fdl : Fin C → Fin M → Fin K → R) (fdl_cursor : ℕ) : Fin C → Fin M → R :=
  fun c m => ∑ k : Fin K,
    filters_fd c m k *
      fdl c m ⟨(K + fdl_cursor - k.val) % K, Nat.mod_lt _ (by have := k.isLt; omega)⟩

/-- Embedding of the numba kernel `cpu_multiply_single_input` (broadcast mode):
identical ring arithmetic, but every output channel reads input channel `0`
of the delay line (`fdl[0, :, cursor]`). -/
def cpu_multiply_single_input {C Cin M K : ℕ} [NeZero Cin]
    (filters_fd : Fin C → Fin M → Fin K → R)
    (fdl : Fin Cin → Fin M → Fin K → R) (fdl_cursor : ℕ) : Fin C → Fin M → R :=
  fun c m => ∑ k : Fin K,
    filters_fd c m k *
      fdl ⟨0, Nat.pos_of_neZero Cin⟩ m
        ⟨(K + fdl_cursor - k.val) % K, Nat.mod_lt _ (by have := k.isLt; omega)⟩

/-- Writing the current input spectrum into the delay line:
`self.fdl[:, :, self.fdl_cursor] = input_fd`. -/
def write_fdl {Cin M K : ℕ} (fdl : Fin Cin → Fin M → Fin K → R) (cursor : ℕ)
    (X : Fin Cin → Fin M → R) : Fin Cin → Fin M → Fin K → R :=
  fun ci m k => if k.val = cursor then X ci m else fdl ci m k

/-- The framer buffer update of `__parse_input__` as the source performs it:
`torch.roll(input_buffer_td, -B, dims=1)` (so position `n` reads old position
`(n + B) % fs`), then overwriting the last `B` columns with the new block. -/
def roll_update (Cin B fs : ℕ) [NeZero fs] [NeZero B]
    (buf : Fin Cin → Fin fs → R) (x : Fin Cin → Fin B → R) :
    Fin Cin → Fin fs → R :=
  fun ci n2 =>
    if _h : fs - B ≤ n2.val then
      x ci ⟨n2.val - (fs - B), by
        have h1 := n2.isLt
        have h2 := Nat.pos_of_neZero B
        omega⟩
    else buf ci ⟨(n2.val + B) % fs, Nat.mod_lt _ (Nat.pos_of_neZero fs)⟩

/-- The shape/dtype acceptance condition of `__parse_input__`: shape exactly
`(Cin, B)` (or 1-D of length `B` when `Cin = 1`), dtype `torch.float32` or
`np.float32`. -/
def signal_accepted {R : Type} (Cin B : ℕ) (sig : RawSignal R) : Prop :=
  (sig.dims = [Cin, B] ∨ (sig.dims = [B] ∧ Cin = 1)) ∧
    (sig.dtype = Dtype.float32_torch ∨ sig.dtype = Dtype.float32_np)

instance {R : Type} (Cin B : ℕ) (sig : RawSignal R) :
    Decidable (signal_accepted Cin B sig) := by
  unfold signal_accepted
  infer_instance

/-- Embedding of `__parse_input__`: validation of shape (exactly `(Cin, B)`,
or 1-D of length `B` reshaped when `Cin = 1`) and dtype (`torch.float32`, with
`np.float32` converted), in source order and raising before any mutation;
then the buffer update (`torch.roll` by `-B` along time, then overwriting the
last `B` columns) and the forward rfft.  Returns the updated buffer together
with the input spectrum. -/
def parse_input (Cin B fs : ℕ) [NeZero fs] [NeZero B] (w : R)
    (buf : Fin Cin → Fin fs → R) (sig : RawSignal R) :
    Except String ((Fin Cin → Fin fs → R) × (Fin Cin → Fin (num_bins fs) → R)) :=
  if _hsh : sig.dims = [Cin, B] ∨ (sig.dims = [B] ∧ Cin = 1) then
    if _hdt : sig.dtype = Dtype.float32_torch ∨ sig.dtype = Dtype.float32_np then
      let x : Fin Cin → Fin B → R := fun ci b => sig.data ci.val b.val
      let buf2 := roll_update Cin B fs buf x
      Except.ok (buf2, fun ci => rfft_bins fs w (buf2 ci))
    else Except.error "The input signal must be of type float32."
  else
    Except.error ("The input signal must be a 2D array with shape (" ++
      toString Cin ++ ", " ++ toString B ++ ").")

/-- The mode dispatch of `__perform_convolution__`: the source calls
`cpu_multiply_single_input` when `self.input_C == 1` and `cpu_multiply`
otherwise; in the latter case construction has enforced `Cin = C` (numpy
broadcasting of `filters_fd[:, :, k] * fdl[:, :, cursor]` requires it), which
the embedding records in `hmode` to mediate the channel index types. -/
def output_fd_of {C Cin M K : ℕ} [NeZero Cin] (hmode : Cin = 1 ∨ Cin = C)
    (filters : Fin C → Fin M → Fin K → R) (fdl : Fin Cin → Fin M → Fin K → R)
    (cursor : ℕ) : Fin C → Fin M → R :=
  if h1 : Cin = 1 then cpu_multiply_single_input filters fdl cursor
  else cpu_multiply filters
    (fun c m k => fdl (Fin.cast (hmode.resolve_left h1).symm c) m k) cursor

/-- Embedding of one CPU `convolve` call (base-class `convolve` together with
`PartitionedConvolutionCPU.__perform_convolution__`): parse/validate the
input (returning the unchanged state on a validation error), write the input
spectrum into FDL slot `fdl_cursor`, run the partition MAC at the un-advanced
cursor, advance the cursor by one modulo `K`, inverse-transform the output
spectrum and return its last `B` samples per channel. -/
def convolve (C Cin B fs K : ℕ) [NeZero fs] [NeZero B] [NeZero Cin]
    (fd : FFTData R) (hmode : Cin = 1 ∨ Cin = C) (h2B : 2 * B ≤ fs)
    (st : PCState R C Cin fs K) (sig : RawSignal R) :
    PCState R C Cin fs K × Except String (Fin C → Fin B → R) :=
  match parse_input Cin B fs fd.w st.input_buffer_td sig with
  | Except.error e => (st, Except.error e)
  | Except.ok (buf2, input_fd) =>
      let fdl2 := write_fdl st.fdl st.fdl_cursor input_fd
      let output_fd := output_fd_of hmode st.filters_fd fdl2 st.fdl_cursor
      let output_td : Fin C → Fin (irfft_len fs) → R :=
        fun c => irfft_torch fs fd.u fd.invL fd.conj (output_fd c)
      (⟨st.filters_fd, buf2, fdl2, (st.fdl_cursor + 1) % K⟩,
        Except.ok (fun c i => output_td c ⟨irfft_len fs - B + i.val, by
          have h1 : B ≤ fs / 2 := (Nat.le_div_iff_mul_le (by omega)).2 (by omega)
          have h2 := i.isLt
          have h3 : irfft_len fs = 2 * (fs / 2) := by
            simp [irfft_len, num_bins]
          omega⟩))

/-- Sequential driver: feed a list of raw signals through `convolve`,
collecting the per-call results in order. -/
def run_engine (C Cin B fs K : ℕ) [NeZero fs] [NeZero B] [NeZero Cin]
    (fd : FFTData R) (hmode : Cin = 1 ∨ Cin = C) (h2B : 2 * B ≤ fs)
    (st : PCState R C Cin fs K) (sigs : List (RawSignal R)) :
    PCState R C Cin fs K × List (Except String (Fin C → Fin B → R)) :=
  sigs.foldl (fun acc sig =>
    let r := convolve C Cin B fs K fd hmode h2B acc.1 sig
    (r.1, acc.2 ++ [r.2])) (st, [])

end Engine

section FilterBlocks

variable {R : Type} [CommRing R]

/-- Channel-wise zero extension of the time-domain filter
(`np.pad(filter_td, ((0, 0), (0, remainder)))`), as a total tap accessor. -/
def padded_filter (C FL : ℕ) (h : Fin C → Fin FL → R) (c : Fin C) (t : ℕ) : R :=
  if ht : t < FL then h c ⟨t, ht⟩ else 0

/-- The `reshape((C, B, K), order='F')` view of the zero-extended filter.
Reading the `(C, K*B)` source in Fortran order and filling the `(C, B, K)`
target in Fortran order sends target index `(c, b, k)` to source tap
`(c, b + B*k)`. -/
def filter_parts (C FL B K : ℕ) (h : Fin C → Fin FL → R) :
    Fin C → Fin B → Fin K → R :=
  fun c b k => padded_filter C FL h c (b.val + B * k.val)

/-- Zero-padding each length-`B` partition to the FFT size along axis 1
(`np.pad(filter_parts, ((0, 0), (0, fft_size - B), (0, 0)))`). -/
def filters_padded (C FL B K fs : ℕ) (h : Fin C → Fin FL → R) :
    Fin C → Fin fs → Fin K → R :=
  fun c t k => if ht : t.val < B then filter_parts C FL B K h c ⟨t.val, ht⟩ k else 0

/-- Embedding of `__create_filter_blocks__`: rfft of the padded partitions
along axis 1.  The resulting table has logical numpy shape
`(C, num_bins, K)` and is indexed `[c, m, k]`, exactly as `cpu_multiply`
consumes it (`_, _, K = filters_fd.shape`; `filters_fd[:, :, k]`). -/
def create_filter_blocks (C FL B K fs : ℕ) (w : R) (h : Fin C → Fin FL → R) :
    Fin C → Fin (num_bins fs) → Fin K → R :=
  fun c m k => rfft_bins fs w (fun t => filters_padded C FL B K fs h c t k) m

/-- The freshly constructed engine state: filter table from
`__create_filter_blocks__`, zero input buffer, zero FDL, cursor `0`. -/
def init_state (C Cin FL B K fs : ℕ) (w : R) (h : Fin C → Fin FL → R) :
    PCState R C Cin fs K :=
  ⟨create_filter_blocks C FL B K fs w h, fun _ _ => 0, fun _ _ _ => 0, 0⟩

end FilterBlocks

section GPU

variable {R : Type} [CommRing R]

/-- Modelled from the spec: the CUDA kernel `part_conv_gpu` (its source
`kernel.cu` is not part of `src/`).  Per the GPU back-end boundary in the
spec, the kernel "writes the new spectrum into the FDL slot, performs the
MAC, and returns the `C x M` output spectrum"; the MAC is the same partition
sum as the CPU kernels, in matched or broadcast mode. -/
def part_conv_gpu {C Cin M K : ℕ} [NeZero Cin] (hmode : Cin = 1 ∨ Cin = C)
    (input_fd : Fin Cin → Fin M → R) (fdl : Fin Cin → Fin M → Fin K → R)
    (filters : Fin C → Fin M → Fin K → R) (cursor : ℕ) :
    (Fin Cin → Fin M → Fin K → R) × (Fin C → Fin M → R) :=
  let fdl2 := write_fdl fdl cursor input_fd
  (fdl2, output_fd_of hmode filters fdl2 cursor)

/-- Embedding of one GPU `convolve` call: base-class parsing, the (modelled)
device kernel at the un-advanced cursor, then the cursor update
`self.fdl_cursor = (self.fdl_cursor + 1) % self.K` of
`PartitionedConvolutionGPU.__perform_convolution__`, which is part of
`src/`, followed by the inverse FFT and tail slice of the base class. -/
def convolve_gpu (C Cin B fs K : ℕ) [NeZero fs] [NeZero B] [NeZero Cin]
    (fd : FFTData R) (hmode : Cin = 1 ∨ Cin = C) (h2B : 2 * B ≤ fs)
    (st : PCState R C Cin fs K) (sig : RawSignal R) :
    PCState R C Cin fs K × Except String (Fin C → Fin B → R) :=
  match parse_input Cin B fs fd.w st.input_buffer_td sig with
  | Except.error e => (st, Except.error e)
  | Except.ok (buf2, input_fd) =>
      let kr := part_conv_gpu hmode input_fd st.fdl st.filters_fd st.fdl_cursor
      let output_td : Fin C → Fin (irfft_len fs) → R :=
        fun c => irfft_torch fs fd.u fd.invL fd.conj (kr.2 c)
      (⟨st.filters_fd, buf2, kr.1, (st.fdl_cursor + 1) % K⟩,
        Except.ok (fun c i => output_td c ⟨irfft_len fs - B + i.val, by
          have h1 : B ≤ fs / 2 := (Nat.le_div_iff_mul_le (by omega)).2 (by omega)
          have h2 := i.isLt
          have h3 : irfft_len fs = 2 * (fs / 2) := by
            simp [irfft_len, num_bins]
          omega⟩))

end GPU

/-- Python exceptions that `PartitionedConvolution.__init__` can raise:
`ZeroDivisionError` (from `self.FL / self.B` with `B = 0`) or a
`ValueError` with its message. -/
inductive PyErr
  | zeroDivision
  | valueError (msg : String)
deriving DecidableEq

/-- The derived construction parameters recorded by `__init__` when it
succeeds. -/
structure InitParams where
  K : ℤ
  fft_size : ℤ
  num_bins : ℤ
deriving DecidableEq

/-- Embedding of `PartitionedConvolution.__init__` after the 2-D shape check
(the filter shape is passed as `C, FL`; `B` and the channel count are Python
ints, so negative values are representable).  Statement order follows the
source: `K = ceil(FL / B)` is computed (raising `ZeroDivisionError` when
`B = 0`) before any of the parameter validations run; then the validations
run in source order, each raising `ValueError` with the source's message. -/
def engine_init (C FL : ℕ) (B : ℤ) (fft_size : Option ℤ)
    (num_input_channels : ℤ) (device : String) : Except PyErr InitParams :=
  if B = 0 then Except.error PyErr.zeroDivision
  else
    let K : ℤ := Int.ceil ((FL : ℚ) / (B : ℚ))
    let fs : ℤ := fft_size.getD (2 * B)
    if (FL : ℤ) < B then
      Except.error (PyErr.valueError
        "The filter length must be greater than the block length.")
    else if B < 1 then
      Except.error (PyErr.valueError "The block length must be greater than 1.")
    else if fs < 2 * B then
      Except.error (PyErr.valueError
        "The FFT size must be greater than or equal to 2 * block length.")
    else if (FL : ℤ) < 1 then
      Except.error (PyErr.valueError "The filter length must be greater than 1.")
    else if (C : ℤ) < 1 then
      Except.error (PyErr.valueError "The number of channels must be greater than 1.")
    else if num_input_channels ≠ 1 ∧ num_input_channels ≠ (C : ℤ) then
      Except.error (PyErr.valueError
        "The number of input channels must be 1 or equal to the number of filter channels.")
    else if device ≠ "cpu" ∧ device ≠ "gpu" then
      Except.error (PyErr.valueError "The device must be either 'cpu' or 'gpu'.")
    else Except.ok ⟨K, fs, Int.fdiv fs 2 + 1⟩

section ListPipeline

variable {R : Type} [CommRing R]

/-- One bin of the DFT of a list column (used by the list-shaped embedding of
`__create_filter_blocks__`): bin `m` of the length-`n` transform of `col`. -/
def rfft_list (w : R) (n : ℕ) (col : ℕ → R) (m : ℕ) : R :=
  ((List.range n).map (fun t => col t * w ^ (m * t))).sum

/-- List-shaped embedding of `__create_filter_blocks__`, keeping every numpy
array dimension observable as a list length: zero-extend each channel to
`K*B` taps, take the Fortran-order `(C, B, K)` partition view, zero-pad axis 1
to `fft_size`, and apply the rfft along axis 1 (`np.fft.rfft(..., axis=1)`
turns shape `(C, fft_size, K)` into `(C, fft_size // 2 + 1, K)`). -/
def create_filter_blocks_list (w : R) (B K fs : ℕ) (filter_td : List (List R)) :
    List (List (List R)) :=
  let padded : List (List R) :=
    filter_td.map (fun ch => ch ++ List.replicate (K * B - ch.length) 0)
  let parts : List (List (List R)) :=
    padded.map (fun ch =>
      (List.range B).map (fun b => (List.range K).map (fun k => ch.getD (b + B * k) 0)))
  let parts_padded : List (List (List R)) :=
    parts.map (fun chm =>
      (List.range fs).map (fun t =>
        if t < B then chm.getD t [] else List.replicate K 0))
  parts_padded.map (fun chm =>
    (List.range (num_bins fs)).map (fun m =>
      (List.range K).map (fun k =>
        rfft_list w fs (fun t => (chm.getD t []).getD k 0) m)))

/-- The numpy shape of a 3-D nested list (outer length, then the lengths of
the first rows; the pipeline above produces uniform rows). -/
def shape3 {α : Type} (xs : List (List (List α))) : ℕ × ℕ × ℕ :=
  (xs.length, (xs.getD 0 []).length, ((xs.getD 0 []).getD 0 []).length)

end ListPipeline

section SpecSide

variable {R : Type} [CommRing R]

/-- The Input Framer update exactly as the spec words it:
`win[:, 0:N-B] <- win[:, B:N]` and `win[:, N-B:N] <- x`. -/
def framer_spec_update (Cin B fs : ℕ) (buf : Fin Cin → Fin fs → R)
    (x : Fin Cin → Fin B → R) : Fin Cin → Fin fs → R :=
  fun ci n2 =>
    if h : n2.val < fs - B then buf ci ⟨n2.val + B, by omega⟩
    else x ci ⟨n2.val - (fs - B), by have := n2.isLt; omega⟩

/-- The concatenation of a list of input blocks as a stream over integer
sample indices, zero before time `0` and after the received samples
(block `t / B`, column `t % B`). -/
def stream_pad (Cin B : ℕ) [NeZero B] (xs : List (Fin Cin → Fin B → R))
    (ci : Fin Cin) (t : ℤ) : R :=
  if 0 ≤ t then
    (xs.getD (t.toNat / B) (fun _ _ => 0)) ci
      ⟨t.toNat % B, Nat.mod_lt _ (Nat.pos_of_neZero B)⟩
  else 0

/-- The length-`fs` input window whose last sample is the last sample of
block `j` of the stream (the framer buffer contents after block `j` has been
pushed); `j < 0` gives the all-zero initial window. -/
def window_z (Cin B fs : ℕ) [NeZero B] (xs : List (Fin Cin → Fin B → R))
    (ci : Fin Cin) (j : ℤ) : Fin fs → R :=
  fun i => stream_pad Cin B xs ci ((j + 1) * B - fs + i.val)

/-- The block index whose window occupies FDL ring slot `p` after `n` calls:
the largest `j < n` congruent to `p` modulo `K` (negative when slot `p` has
not been written yet, matching the all-zero initial FDL contents through
`window_z`). -/
def j_idx (K : ℕ) (n p : ℤ) : ℤ := n - 1 - ((n - 1 - p) % (K : ℤ))

/-- Sample `t` of the linear convolution of the finite filter `h` with the
stream `s`. -/
def lin_conv (FL : ℕ) (h : Fin FL → R) (s : ℤ → R) (t : ℤ) : R :=
  ∑ τ : Fin FL, h τ * s (t - τ.val)

/-- The input channel that output channel `c` convolves against: channel `0`
in broadcast mode (`Cin = 1`), channel `c` in matched mode (`Cin = C`). -/
def tap_channel (C Cin : ℕ) [NeZero Cin] (hmode : Cin = 1 ∨ Cin = C) :
    Fin C → Fin Cin :=
  fun c => if h1 : Cin = 1 then ⟨0, Nat.pos_of_neZero Cin⟩
    else Fin.cast (hmode.resolve_left h1).symm c

/-- A well-formed raw `convolve` argument built from a typed block: dtype
`torch.float32`, shape exactly `(Cin, B)`. -/
def raw_of (Cin B : ℕ) (x : Fin Cin → Fin B → R) : RawSignal R :=
  ⟨Dtype.float32_torch, [Cin, B],
    fun i j => if h : i < Cin ∧ j < B then x ⟨i, h.1⟩ ⟨j, h.2⟩ else 0⟩

/-- The expected `j`-th output block (0-indexed) of the engine on the input
block list `xs`: for each output channel `c` and column `i`, sample
`j*B + i` of the linear convolution of channel `c`'s filter with the input
stream it taps. -/
def expected_block (C Cin B FL : ℕ) [NeZero Cin] [NeZero B]
    (hmode : Cin = 1 ∨ Cin = C) (h : Fin C → Fin FL → R)
    (xs : List (Fin Cin → Fin B → R)) (j : ℕ) : Fin C → Fin B → R :=
  fun c i =>
    lin_conv FL (h c) (stream_pad Cin B xs (tap_channel C Cin hmode c))
      ((j * B + i.val : ℕ) : ℤ)

/-- The FDL ring position `(fdl_cursor - k + K) mod K` exactly as the spec
writes it (integer arithmetic, nonnegative result). -/
def spec_ring_pos (K cursor k : ℕ) [NeZero K] : Fin K :=
  ⟨((cursor - k + K : ℤ) % (K : ℤ)).toNat, by
    have hK := Nat.pos_of_neZero K
    have h1 : (0 : ℤ) < (K : ℤ) := by exact_mod_cast hK
    have h2 := Int.emod_nonneg (cursor - k + K : ℤ) (by omega : (K : ℤ) ≠ 0)
    have h3 := Int.emod_lt_of_pos (cursor - k + K : ℤ) h1
    omega⟩

/-- Every per-call result in a list succeeded. -/
def all_ok {ε α : Type} (rs : List (Except ε α)) : Prop :=
  ∀ r ∈ rs, r.isOk = true

instance {ε α : Type} (rs : List (Except ε α)) : Decidable (all_ok rs) := by
  unfold all_ok
  infer_instance

end SpecSide

/-- Computable quadratic extension of the rationals: `Quad p q` is
`ℚ[x]/(x^2 - q*x - p)`, the element `re + im * θ` with `θ^2 = p + q*θ`.
`Quad (-1) 0` is the Gaussian rationals (θ = i, enough roots of unity for
`fft_size = 4`); `Quad (-1) (-1)` adjoins a primitive cube root of unity
(enough for the odd size `fft_size = 3`).  These are the computable models of
the complex scalars on which witnesses and counterexamples evaluate. -/
structure Quad (p q : ℚ) where
  re : ℚ
  im : ℚ
deriving DecidableEq

/-- Addition in `Quad p q` (componentwise). -/
def quad_add {p q : ℚ} (a b : Quad p q) : Quad p q := ⟨a.re + b.re, a.im + b.im⟩

/-- Negation in `Quad p q`. -/
def quad_neg {p q : ℚ} (a : Quad p q) : Quad p q := ⟨-a.re, -a.im⟩

/-- Multiplication in `Quad p q`, using `θ^2 = p + q*θ`. -/
def quad_mul {p q : ℚ} (a b : Quad p q) : Quad p q :=
  ⟨a.re * b.re + a.im * b.im * p, a.re * b.im + a.im * b.re + a.im * b.im * q⟩

instance {p q : ℚ} : Zero (Quad p q) := ⟨⟨0, 0⟩⟩

instance {p q : ℚ} : One (Quad p q) := ⟨⟨1, 0⟩⟩

instance {p q : ℚ} : Add (Quad p q) := ⟨quad_add⟩

instance {p q : ℚ} : Mul (Quad p q) := ⟨quad_mul⟩

instance {p q : ℚ} : Neg (Quad p q) := ⟨quad_neg⟩

instance {p q : ℚ} : CommRing (Quad p q) where
  add := quad_add
  add_assoc := fun ⟨a1, a2⟩ ⟨b1, b2⟩ ⟨c1, c2⟩ => by
    show quad_add (quad_add ⟨a1, a2⟩ ⟨b1, b2⟩) ⟨c1, c2⟩ =
      quad_add ⟨a1, a2⟩ (quad_add ⟨b1, b2⟩ ⟨c1, c2⟩)
    simp only [quad_add, Quad.mk.injEq]
    constructor <;> ring
  zero := ⟨0, 0⟩
  zero_add := fun ⟨a1, a2⟩ => by
    show quad_add ⟨0, 0⟩ ⟨a1, a2⟩ = ⟨a1, a2⟩
    simp only [quad_add, Quad.mk.injEq]
    constructor <;> ring
  add_zero := fun ⟨a1, a2⟩ => by
    show quad_add ⟨a1, a2⟩ ⟨0, 0⟩ = ⟨a1, a2⟩
    simp only [quad_add, Quad.mk.injEq]
    constructor <;> ring
  add_comm := fun ⟨a1, a2⟩ ⟨b1, b2⟩ => by
    show quad_add ⟨a1, a2⟩ ⟨b1, b2⟩ = quad_add ⟨b1, b2⟩ ⟨a1, a2⟩
    simp only [quad_add, Quad.mk.injEq]
    constructor <;> ring
  mul := quad_mul
  mul_assoc := fun ⟨a1, a2⟩ ⟨b1, b2⟩ ⟨c1, c2⟩ => by
    show quad_mul (quad_mul ⟨a1, a2⟩ ⟨b1, b2⟩) ⟨c1, c2⟩ =
      quad_mul ⟨a1, a2⟩ (quad_mul ⟨b1, b2⟩ ⟨c1, c2⟩)
    simp only [quad_mul, Quad.mk.injEq]
    constructor <;> ring
  one := ⟨1, 0⟩
  one_mul := fun ⟨a1, a2⟩ => by
    show quad_mul ⟨1, 0⟩ ⟨a1, a2⟩ = ⟨a1, a2⟩
    simp only [quad_mul, Quad.mk.injEq]
    constructor <;> ring
  mul_one := fun ⟨a1, a2⟩ => by
    show quad_mul ⟨a1, a2⟩ ⟨1, 0⟩ = ⟨a1, a2⟩
    simp only [quad_mul, Quad.mk.injEq]
    constructor <;> ring
  left_distrib := fun ⟨a1, a2⟩ ⟨b1, b2⟩ ⟨c1, c2⟩ => by
    show quad_mul ⟨a1, a2⟩ (quad_add ⟨b1, b2⟩ ⟨c1, c2⟩) =
      quad_add (quad_mul ⟨a1, a2⟩ ⟨b1, b2⟩) (quad_mul ⟨a1, a2⟩ ⟨c1, c2⟩)
    simp only [quad_mul, quad_add, Quad.mk.injEq]
    constructor <;> ring
  right_distrib := fun ⟨a1, a2⟩ ⟨b1, b2⟩ ⟨c1, c2⟩ => by
    show quad_mul (quad_add ⟨a1, a2⟩ ⟨b1, b2⟩) ⟨c1, c2⟩ =
      quad_add (quad_mul ⟨a1, a2⟩ ⟨c1, c2⟩) (quad_mul ⟨b1, b2⟩ ⟨c1, c2⟩)
    simp only [quad_mul, quad_add, Quad.mk.injEq]
    constructor <;> ring
  zero_mul := fun ⟨a1, a2⟩ => by
    show quad_mul ⟨0, 0⟩ ⟨a1, a2⟩ = ⟨0, 0⟩
    simp only [quad_mul, Quad.mk.injEq]
    constructor <;> ring
  mul_zero := fun ⟨a1, a2⟩ => by
    show quad_mul ⟨a1, a2⟩ ⟨0, 0⟩ = ⟨0, 0⟩
    simp only [quad_mul, Quad.mk.injEq]
    constructor <;> ring
  mul_comm := fun ⟨a1, a2⟩ ⟨b1, b2⟩ => by
    show quad_mul ⟨a1, a2⟩ ⟨b1, b2⟩ = quad_mul ⟨b1, b2⟩ ⟨a1, a2⟩
    simp only [quad_mul, Quad.mk.injEq]
    constructor <;> ring
  neg := quad_neg
  neg_add_cancel := fun ⟨a1, a2⟩ => by
    show quad_add (quad_neg ⟨a1, a2⟩) ⟨a1, a2⟩ = ⟨0, 0⟩
    simp only [quad_add, quad_neg, Quad.mk.injEq]
    constructor <;> ring
  nsmul := nsmulRec
  zsmul := zsmulRec

/-- Conjugation on `Quad p q`: the nontrivial `ℚ`-algebra automorphism,
sending the root `θ` of `x^2 - q*x - p` to the other root `q - θ`.  On the
Gaussian model `Quad (-1) 0` this is complex conjugation. -/
def quad_conj (p q : ℚ) : Quad p q →+* Quad p q where
  toFun a := ⟨a.re + a.im * q, -a.im⟩
  map_one' := by
    show (⟨1 + 0 * q, -0⟩ : Quad p q) = ⟨1, 0⟩
    simp only [Quad.mk.injEq]
    constructor <;> ring
  map_mul' := fun ⟨a1, a2⟩ ⟨b1, b2⟩ => by
    show (⟨(quad_mul ⟨a1, a2⟩ ⟨b1, b2⟩).re + (quad_mul ⟨a1, a2⟩ ⟨b1, b2⟩).im * q,
        -(quad_mul ⟨a1, a2⟩ ⟨b1, b2⟩).im⟩ : Quad p q) =
      quad_mul ⟨a1 + a2 * q, -a2⟩ ⟨b1 + b2 * q, -b2⟩
    simp only [quad_mul, Quad.mk.injEq]
    constructor <;> ring
  map_zero' := by
    show (⟨0 + 0 * q, -0⟩ : Quad p q) = ⟨0, 0⟩
    simp only [Quad.mk.injEq]
    constructor <;> ring
  map_add' := fun ⟨a1, a2⟩ ⟨b1, b2⟩ => by
    show (⟨(quad_add ⟨a1, a2⟩ ⟨b1, b2⟩).re + (quad_add ⟨a1, a2⟩ ⟨b1, b2⟩).im * q,
        -(quad_add ⟨a1, a2⟩ ⟨b1, b2⟩).im⟩ : Quad p q) =
      quad_add ⟨a1 + a2 * q, -a2⟩ ⟨b1 + b2 * q, -b2⟩
    simp only [quad_add, Quad.mk.injEq]
    constructor <;> ring

instance {ε α : Type} [DecidableEq ε] [DecidableEq α] : DecidableEq (Except ε α) :=
  fun a b =>
    match a, b with
    | Except.error x, Except.error y =>
      if h : x = y then Decidable.isTrue (by rw [h])
      else Decidable.isFalse (by intro hc; cases hc; exact h rfl)
    | Except.error _, Except.ok _ => Decidable.isFalse (by intro hc; cases hc)
    | Except.ok _, Except.error _ => Decidable.isFalse (by intro hc; cases hc)
    | Except.ok x, Except.ok y =>
      if h : x = y then Decidable.isTrue (by rw [h])
      else Decidable.isFalse (by intro hc; cases hc; exact h rfl)

/-- A primitive cube root of unity in `Quad (-1) (-1)` (it satisfies
`zeta3^2 = -1 - zeta3`, hence `zeta3^3 = 1`); it models `e^(-2*pi*i/3)`, the
forward FFT root for `fft_size = 3`. -/
def zeta3 : Quad (-1) (-1) := ⟨0, 1⟩

/-- FFT scalars for the engine at the odd size `fft_size = 3`: forward root
`zeta3` (order 3); the code's inverse transform has length
`irfft_len 3 = 2`, so its root is `-1` and its scale is `1/2`. -/
def fft3_data : FFTData (Quad (-1) (-1)) :=
  ⟨zeta3, ⟨-1, 0⟩, ⟨1/2, 0⟩, quad_conj (-1) (-1)⟩

/-- The scale `1/3` of the honest length-3 inverse FFT (what the spec's
Output Reconstructor would use at `N = 3`). -/
def third3 : Quad (-1) (-1) := ⟨1/3, 0⟩

/-- A well-formed all-ones input block for the `B = 1` single-channel
engine over `Quad (-1) (-1)`. -/
def one_block3 : RawSignal (Quad (-1) (-1)) := raw_of 1 1 (fun _ _ => 1)

/-- Fresh engine state for `C = Cin = 1`, `FL = 1`, `B = 1`, `K = 1`,
`fft_size = 3` (odd, accepted by the constructor since `3 ≥ 2*B`), with the
identity filter `[1]`. -/
def st0_odd : PCState (Quad (-1) (-1)) 1 1 3 1 :=
  init_state 1 1 1 1 1 3 zeta3 (fun _ _ => 1)

/-- Engine state after one accepted call with input block `[1]`. -/
def st1_odd : PCState (Quad (-1) (-1)) 1 1 3 1 :=
  (convolve 1 1 1 3 1 fft3_data (Or.inl rfl) (by omega) st0_odd one_block3).1

/-- The MAC output spectrum of the second call (input `[1]` again) on the
odd-size engine: partition sum over the FDL after the write, at the
pre-advance cursor — exactly the spectrum that the second `convolve` call
inverse-transforms. -/
def mac_spec_odd : Fin 1 → Fin (num_bins 3) → Quad (-1) (-1) :=
  output_fd_of (Or.inl rfl) st1_odd.filters_fd
    (write_fdl st1_odd.fdl st1_odd.fdl_cursor
      (fun ci => rfft_bins 3 zeta3
        (roll_update 1 1 3 st1_odd.input_buffer_td (fun _ _ => 1) ci)))
    st1_odd.fdl_cursor

/-- FFT scalars for the engine at the even default size `fft_size = 4`
(so `B = 2`), over the Gaussian rationals `Quad (-1) 0`: forward root
`-i = e^(-2*pi*i/4)`; `irfft_len 4 = 4`, so the inverse root coincides and
the inverse scale is `1/4`. -/
def fft4_data : FFTData (Quad (-1) 0) :=
  ⟨⟨0, -1⟩, ⟨0, -1⟩, ⟨1/4, 0⟩, quad_conj (-1) 0⟩

/-- The scenario-S1 filter `[1, 2, 3, 4]` (one channel, four taps). -/
def s1_filter : Fin 1 → Fin 4 → Quad (-1) 0 :=
  fun _ t => if t.val = 0 then 1 else if t.val = 1 then 2
    else if t.val = 2 then 3 else 4

/-- The scenario-S1 input blocks `[1, 0]`, `[0, 0]`, `[0, 0]` (one channel,
block length `2`). -/
def s1_inputs : List (Fin 1 → Fin 2 → Quad (-1) 0) :=
  [fun _ b => if b.val = 0 then 1 else 0, fun _ _ => 0, fun _ _ => 0]

/-!
Theorems.  Helper lemmas come first, then one theorem per claim (with its
witness or counterexample), in claim order at the end of the file.
-/

theorem code_pos_eq_spec_pos (K cursor k : ℕ) [NeZero K] (hk : k < K) :
    ((K + cursor - k) % K) = ((cursor - k + K : ℤ) % (K : ℤ)).toNat := by
  have h2 : ((cursor : ℤ) - k + K) = ((K + cursor - k : ℕ) : ℤ) := by omega
  rw [h2, ← Int.natCast_mod, Int.toNat_natCast]

theorem roll_update_eq_spec {R : Type} [CommRing R] (Cin B fs : ℕ)
    [NeZero fs] [NeZero B] (hB : B ≤ fs) (buf : Fin Cin → Fin fs → R)
    (x : Fin Cin → Fin B → R) :
    roll_update Cin B fs buf x = framer_spec_update Cin B fs buf x := by
  funext ci n2
  simp only [roll_update, framer_spec_update]
  by_cases h : n2.val < fs - B
  · rw [dif_neg (by omega), dif_pos h]
    congr 1
    refine Fin.ext ?_
    show (n2.val + B) % fs = n2.val + B
    exact Nat.mod_eq_of_lt (by omega)
  · rw [dif_pos (by omega), dif_neg h]

/-- C2: with the cursor in its post-write, pre-advance position, the CPU MAC
computes, for every output channel `c` and bin `m`, the sum over `k < K` of
the partition-`k` filter spectrum at `(m, c)` times the FDL entry at ring
position `(fdl_cursor - k + K) mod K`, reading FDL channel `c` in matched
mode (`cpu_multiply`) and FDL channel `0` in broadcast mode
(`cpu_multiply_single_input`). -/
theorem claim_C2_mac_formula {R : Type} [CommRing R] (C M K Cin : ℕ)
    [NeZero K] [NeZero Cin]
    (filters : Fin C → Fin M → Fin K → R) (fdlm : Fin C → Fin M → Fin K → R)
    (fdls : Fin Cin → Fin M → Fin K → R) (cursor : ℕ) (c : Fin C) (m : Fin M) :
    cpu_multiply filters fdlm cursor c m =
      (∑ k : Fin K, filters c m k * fdlm c m (spec_ring_pos K cursor k.val)) ∧
    cpu_multiply_single_input filters fdls cursor c m =
      (∑ k : Fin K, filters c m k *
        fdls ⟨0, Nat.pos_of_neZero Cin⟩ m (spec_ring_pos K cursor k.val)) := by
  constructor
  · simp only [cpu_multiply]
    refine Finset.sum_congr rfl fun k _ => ?_
    congr 1
    exact congrArg _ (Fin.ext (code_pos_eq_spec_pos K cursor k.val k.isLt))
  · simp only [cpu_multiply_single_input]
    refine Finset.sum_congr rfl fun k _ => ?_
    congr 1
    exact congrArg _ (Fin.ext (code_pos_eq_spec_pos K cursor k.val k.isLt))

/-- Witness for C2 at a concrete instance (`K = 2`, cursor `1`): the MAC
formula instantiates, and evaluates to `3*11 + 5*7` (partition `0` against
the just-written slot `1`, partition `1` against slot `0`). -/
theorem claim_C2_mac_formula_witness :
    (cpu_multiply (R := ℚ) (fun _ _ k => ![3, 5] k) (fun _ _ k => ![7, 11] k) 1
        (0 : Fin 1) (0 : Fin 1) =
      ∑ k : Fin 2, (fun (_ : Fin 1) (_ : Fin 1) (k : Fin 2) => ![(3 : ℚ), 5] k) 0 0 k *
        (fun (_ : Fin 1) (_ : Fin 1) (k : Fin 2) => ![(7 : ℚ), 11] k) 0 0
          (spec_ring_pos 2 1 k.val)) ∧
    cpu_multiply (R := ℚ) (fun _ _ k => ![3, 5] k) (fun _ _ k => ![7, 11] k) 1
        (0 : Fin 1) (0 : Fin 1) = 68 :=
  ⟨(claim_C2_mac_formula 1 1 2 1 (fun _ _ k => ![3, 5] k) (fun _ _ k => ![7, 11] k)
      (fun _ _ k => ![7, 11] k) 1 0 0).1, by with_unfolding_all decide⟩

/-- C3: the construct-time partitioner maps filter taps `[k*B, (k+1)*B)` of
channel `c` to partition `k` (with `K = ceil(FL / B)`), zero-extending the
final partition when `K*B > FL`, and zero-pads each length-`B` partition to
the FFT size before the real-to-complex FFT. -/
theorem claim_C3_partitioner {R : Type} [CommRing R] (C FL B K fs : ℕ) (w : R)
    (hK : K = (FL + B - 1) / B) (h : Fin C → Fin FL → R) :
    (∀ (c : Fin C) (b : Fin B) (k : Fin K),
      filter_parts C FL B K h c b k =
        if hbk : k.val * B + b.val < FL then h c ⟨k.val * B + b.val, hbk⟩ else 0) ∧
    (∀ (c : Fin C) (m : Fin (num_bins fs)) (k : Fin K),
      create_filter_blocks C FL B K fs w h c m k =
        rfft_bins fs w (fun t =>
          if t.val < B then
            (if hbk : k.val * B + t.val < FL then h c ⟨k.val * B + t.val, hbk⟩ else 0)
          else 0) m) := by
  have hpart : ∀ (c : Fin C) (b : ℕ) (k : Fin K),
      padded_filter C FL h c (b + B * k.val) =
        if hbk : k.val * B + b < FL then h c ⟨k.val * B + b, hbk⟩ else 0 := by
    intro c b k
    simp only [padded_filter]
    have key : b + B * k.val = k.val * B + b := by ring
    rw [key]
  constructor
  · intro c b k
    simp only [filter_parts]
    exact hpart c b.val k
  · intro c m k
    simp only [create_filter_blocks]
    congr 1
    funext t
    simp only [filters_padded, filter_parts]
    by_cases ht : t.val < B
    · rw [dif_pos ht, if_pos ht]
      exact hpart c t.val k
    · rw [dif_neg ht, if_neg ht]

/-- Witness for C3 at `C = 1`, `FL = 3`, `B = 2`, `K = 2`, `fft_size = 4`,
filter `[1, 2, 3]`: partition `0` holds taps `[1, 2]`, partition `1` holds
`[3, 0]` (zero-extended), and the hypothesis `K = ceil(FL/B)` is discharged
concretely; tap `(b, k) = (1, 1)` reads past `FL` and is `0`. -/
theorem claim_C3_partitioner_witness :
    ((2 : ℕ) = (3 + 2 - 1) / 2) ∧
    (∀ (c : Fin 1) (b : Fin 2) (k : Fin 2),
      filter_parts 1 3 2 2 (fun _ t => (![1, 2, 3] t : ℚ)) c b k =
        if hbk : k.val * 2 + b.val < 3 then ![(1 : ℚ), 2, 3] ⟨k.val * 2 + b.val, hbk⟩
        else 0) ∧
    filter_parts 1 3 2 2 (fun _ t => (![1, 2, 3] t : ℚ)) 0 1 1 = 0 ∧
    filter_parts 1 3 2 2 (fun _ t => (![1, 2, 3] t : ℚ)) 0 0 1 = 3 :=
  ⟨by decide,
   (claim_C3_partitioner 1 3 2 2 4 (1 : ℚ) (by decide) (fun _ t => ![1, 2, 3] t)).1,
   by with_unfolding_all decide, by with_unfolding_all decide⟩

/-- C6: for every accepted input block and every prior framer state, the
roll-by-`-B`-then-overwrite buffer update of the source equals the spec's
reference update (`win[:, 0:N-B] <- win[:, B:N]`; `win[:, N-B:N] <- x`). -/
theorem claim_C6_framer_refinement {R : Type} [CommRing R] (Cin B fs : ℕ)
    [NeZero fs] [NeZero B] (hB : B ≤ fs) (buf : Fin Cin → Fin fs → R)
    (x : Fin Cin → Fin B → R) :
    roll_update Cin B fs buf x = framer_spec_update Cin B fs buf x :=
  roll_update_eq_spec Cin B fs hB buf x

/-- Witness for C6 at `Cin = 1`, `B = 2`, `fs = 4`, buffer `[1, 2, 3, 4]`,
block `[9, 10]`: the hypothesis `B ≤ fs` is discharged concretely and the
updated buffer evaluates to `[3, 4, 9, 10]` on both sides. -/
theorem claim_C6_framer_refinement_witness :
    ((2 : ℕ) ≤ 4) ∧
    roll_update 1 2 4 (fun _ i => (![1, 2, 3, 4] i : ℚ)) (fun _ i => ![9, 10] i) =
      framer_spec_update 1 2 4 (fun _ i => ![1, 2, 3, 4] i) (fun _ i => ![9, 10] i) ∧
    roll_update 1 2 4 (fun _ i => (![1, 2, 3, 4] i : ℚ)) (fun _ i => ![9, 10] i) =
      fun _ i => ![3, 4, 9, 10] i :=
  ⟨by decide,
   claim_C6_framer_refinement 1 2 4 (by decide)
     (fun _ i => ![1, 2, 3, 4] i) (fun _ i => ![9, 10] i),
   by with_unfolding_all decide⟩

theorem parse_input_accepted {R : Type} [CommRing R] (Cin B fs : ℕ)
    [NeZero fs] [NeZero B] (w : R) (buf : Fin Cin → Fin fs → R)
    (sig : RawSignal R) (hacc : signal_accepted Cin B sig) :
    parse_input Cin B fs w buf sig =
      Except.ok (roll_update Cin B fs buf (fun ci b => sig.data ci.val b.val),
        fun ci => rfft_bins fs w
          (roll_update Cin B fs buf (fun ci b => sig.data ci.val b.val) ci)) := by
  simp only [parse_input]
  rw [dif_pos hacc.1, dif_pos hacc.2]

theorem parse_input_bad_shape {R : Type} [CommRing R] (Cin B fs : ℕ)
    [NeZero fs] [NeZero B] (w : R) (buf : Fin Cin → Fin fs → R)
    (sig : RawSignal R)
    (hsh : ¬(sig.dims = [Cin, B] ∨ (sig.dims = [B] ∧ Cin = 1))) :
    parse_input Cin B fs w buf sig =
      Except.error ("The input signal must be a 2D array with shape (" ++
        toString Cin ++ ", " ++ toString B ++ ").") := by
  simp only [parse_input]
  rw [dif_neg hsh]

theorem parse_input_bad_dtype {R : Type} [CommRing R] (Cin B fs : ℕ)
    [NeZero fs] [NeZero B] (w : R) (buf : Fin Cin → Fin fs → R)
    (sig : RawSignal R)
    (hsh : sig.dims = [Cin, B] ∨ (sig.dims = [B] ∧ Cin = 1))
    (hdt : ¬(sig.dtype = Dtype.float32_torch ∨ sig.dtype = Dtype.float32_np)) :
    parse_input Cin B fs w buf sig =
      Except.error "The input signal must be of type float32." := by
  simp only [parse_input]
  rw [dif_pos hsh, dif_neg hdt]

theorem convolve_of_parse_error {R : Type} [CommRing R] (C Cin B fs K : ℕ)
    [NeZero fs] [NeZero B] [NeZero Cin] (fd : FFTData R)
    (hmode : Cin = 1 ∨ Cin = C) (h2B : 2 * B ≤ fs) (st : PCState R C Cin fs K)
    (sig : RawSignal R) (e : String)
    (hp : parse_input Cin B fs fd.w st.input_buffer_td sig = Except.error e) :
    convolve C Cin B fs K fd hmode h2B st sig = (st, Except.error e) := by
  simp only [convolve, hp]

theorem convolve_ok_eq {R : Type} [CommRing R] (C Cin B fs K : ℕ)
    [NeZero fs] [NeZero B] [NeZero Cin] (fd : FFTData R)
    (hmode : Cin = 1 ∨ Cin = C) (h2B : 2 * B ≤ fs) (st : PCState R C Cin fs K)
    (sig : RawSignal R) (hacc : signal_accepted Cin B sig) :
    convolve C Cin B fs K fd hmode h2B st sig =
      (⟨st.filters_fd,
        roll_update Cin B fs st.input_buffer_td (fun ci b => sig.data ci.val b.val),
        write_fdl st.fdl st.fdl_cursor
          (fun ci => rfft_bins fs fd.w
            (roll_update Cin B fs st.input_buffer_td
              (fun ci b => sig.data ci.val b.val) ci)),
        (st.fdl_cursor + 1) % K⟩,
       Except.ok (fun c i =>
         irfft_torch fs fd.u fd.invL fd.conj
           (output_fd_of hmode st.filters_fd
             (write_fdl st.fdl st.fdl_cursor
               (fun ci => rfft_bins fs fd.w
                 (roll_update Cin B fs st.input_buffer_td
                   (fun ci b => sig.data ci.val b.val) ci)))
             st.fdl_cursor c)
           ⟨irfft_len fs - B + i.val, by
             have h1 : B ≤ fs / 2 := (Nat.le_div_iff_mul_le (by omega)).2 (by omega)
             have h2 := i.isLt
             have h3 : irfft_len fs = 2 * (fs / 2) := by
               simp [irfft_len, num_bins]
             omega⟩)) := by
  simp only [convolve, parse_input_accepted Cin B fs fd.w st.input_buffer_td sig hacc]

theorem convolve_gpu_of_parse_error {R : Type} [CommRing R] (C Cin B fs K : ℕ)
    [NeZero fs] [NeZero B] [NeZero Cin] (fd : FFTData R)
    (hmode : Cin = 1 ∨ Cin = C) (h2B : 2 * B ≤ fs) (st : PCState R C Cin fs K)
    (sig : RawSignal R) (e : String)
    (hp : parse_input Cin B fs fd.w st.input_buffer_td sig = Except.error e) :
    convolve_gpu C Cin B fs K fd hmode h2B st sig = (st, Except.error e) := by
  simp only [convolve_gpu, hp]

theorem convolve_gpu_cursor_ok {R : Type} [CommRing R] (C Cin B fs K : ℕ)
    [NeZero fs] [NeZero B] [NeZero Cin] (fd : FFTData R)
    (hmode : Cin = 1 ∨ Cin = C) (h2B : 2 * B ≤ fs) (st : PCState R C Cin fs K)
    (sig : RawSignal R) (hacc : signal_accepted Cin B sig) :
    ((convolve_gpu C Cin B fs K fd hmode h2B st sig).1).fdl_cursor =
      (st.fdl_cursor + 1) % K ∧
    ((convolve_gpu C Cin B fs K fd hmode h2B st sig).2).isOk = true := by
  simp only [convolve_gpu, parse_input_accepted Cin B fs fd.w st.input_buffer_td sig hacc]
  exact ⟨trivial, rfl⟩

theorem run_engine_acc {R : Type} [CommRing R] (C Cin B fs K : ℕ)
    [NeZero fs] [NeZero B] [NeZero Cin] (fd : FFTData R)
    (hmode : Cin = 1 ∨ Cin = C) (h2B : 2 * B ≤ fs)
    (sigs : List (RawSignal R)) :
    ∀ (st : PCState R C Cin fs K) (l : List (Except String (Fin C → Fin B → R))),
      sigs.foldl (fun acc sig =>
          let r := convolve C Cin B fs K fd hmode h2B acc.1 sig
          (r.1, acc.2 ++ [r.2])) (st, l) =
        ((run_engine C Cin B fs K fd hmode h2B st sigs).1,
          l ++ (run_engine C Cin B fs K fd hmode h2B st sigs).2) := by
  induction sigs with
  | nil => intro st l; simp [run_engine]
  | cons sig rest ih =>
      intro st l
      simp only [run_engine, List.foldl_cons]
      rw [ih, ih]
      simp

theorem run_engine_cons {R : Type} [CommRing R] (C Cin B fs K : ℕ)
    [NeZero fs] [NeZero B] [NeZero Cin] (fd : FFTData R)
    (hmode : Cin = 1 ∨ Cin = C) (h2B : 2 * B ≤ fs)
    (st : PCState R C Cin fs K) (sig : RawSignal R) (rest : List (RawSignal R)) :
    run_engine C Cin B fs K fd hmode h2B st (sig :: rest) =
      ((run_engine C Cin B fs K fd hmode h2B
          (convolve C Cin B fs K fd hmode h2B st sig).1 rest).1,
        (convolve C Cin B fs K fd hmode h2B st sig).2 ::
          (run_engine C Cin B fs K fd hmode h2B
            (convolve C Cin B fs K fd hmode h2B st sig).1 rest).2) := by
  simp only [run_engine, List.foldl_cons]
  rw [run_engine_acc]
  simp [run_engine]

theorem run_engine_append {R : Type} [CommRing R] (C Cin B fs K : ℕ)
    [NeZero fs] [NeZero B] [NeZero Cin] (fd : FFTData R)
    (hmode : Cin = 1 ∨ Cin = C) (h2B : 2 * B ≤ fs)
    (st : PCState R C Cin fs K) (sigs : List (RawSignal R)) (sig : RawSignal R) :
    run_engine C Cin B fs K fd hmode h2B st (sigs ++ [sig]) =
      ((convolve C Cin B fs K fd hmode h2B
          (run_engine C Cin B fs K fd hmode h2B st sigs).1 sig).1,
        (run_engine C Cin B fs K fd hmode h2B st sigs).2 ++
          [(convolve C Cin B fs K fd hmode h2B
            (run_engine C Cin B fs K fd hmode h2B st sigs).1 sig).2]) := by
  simp only [run_engine, List.foldl_append, List.foldl_cons, List.foldl_nil]

theorem convolve_rejected {R : Type} [CommRing R] (C Cin B fs K : ℕ)
    [NeZero fs] [NeZero B] [NeZero Cin] (fd : FFTData R)
    (hmode : Cin = 1 ∨ Cin = C) (h2B : 2 * B ≤ fs) (st : PCState R C Cin fs K)
    (sig : RawSignal R) (hacc : ¬ signal_accepted Cin B sig) :
    ∃ e, convolve C Cin B fs K fd hmode h2B st sig = (st, Except.error e) := by
  by_cases hsh : sig.dims = [Cin, B] ∨ (sig.dims = [B] ∧ Cin = 1)
  · have hdt : ¬(sig.dtype = Dtype.float32_torch ∨ sig.dtype = Dtype.float32_np) := by
      intro hdt
      exact hacc ⟨hsh, hdt⟩
    exact ⟨_, convolve_of_parse_error C Cin B fs K fd hmode h2B st sig _
      (parse_input_bad_dtype Cin B fs fd.w st.input_buffer_td sig hsh hdt)⟩
  · exact ⟨_, convolve_of_parse_error C Cin B fs K fd hmode h2B st sig _
      (parse_input_bad_shape Cin B fs fd.w st.input_buffer_td sig hsh)⟩

theorem convolve_isOk_iff {R : Type} [CommRing R] (C Cin B fs K : ℕ)
    [NeZero fs] [NeZero B] [NeZero Cin] (fd : FFTData R)
    (hmode : Cin = 1 ∨ Cin = C) (h2B : 2 * B ≤ fs) (st : PCState R C Cin fs K)
    (sig : RawSignal R) :
    ((convolve C Cin B fs K fd hmode h2B st sig).2).isOk = true ↔
      signal_accepted Cin B sig := by
  by_cases hacc : signal_accepted Cin B sig
  · rw [convolve_ok_eq C Cin B fs K fd hmode h2B st sig hacc]
    exact iff_of_true rfl hacc
  · obtain ⟨e, he⟩ := convolve_rejected C Cin B fs K fd hmode h2B st sig hacc
    rw [he]
    exact iff_of_false (fun h => nomatch h) hacc

theorem convolve_cursor_of_ok {R : Type} [CommRing R] (C Cin B fs K : ℕ)
    [NeZero fs] [NeZero B] [NeZero Cin] (fd : FFTData R)
    (hmode : Cin = 1 ∨ Cin = C) (h2B : 2 * B ≤ fs) (st : PCState R C Cin fs K)
    (sig : RawSignal R)
    (hok : ((convolve C Cin B fs K fd hmode h2B st sig).2).isOk = true) :
    ((convolve C Cin B fs K fd hmode h2B st sig).1).fdl_cursor =
      (st.fdl_cursor + 1) % K := by
  have hacc := (convolve_isOk_iff C Cin B fs K fd hmode h2B st sig).1 hok
  rw [convolve_ok_eq C Cin B fs K fd hmode h2B st sig hacc]

theorem run_engine_cursor {R : Type} [CommRing R] (C Cin B fs K : ℕ)
    [NeZero fs] [NeZero B] [NeZero Cin] [NeZero K] (fd : FFTData R)
    (hmode : Cin = 1 ∨ Cin = C) (h2B : 2 * B ≤ fs) (sigs : List (RawSignal R)) :
    ∀ st : PCState R C Cin fs K, st.fdl_cursor < K →
      all_ok ((run_engine C Cin B fs K fd hmode h2B st sigs).2) →
      ((run_engine C Cin B fs K fd hmode h2B st sigs).1).fdl_cursor =
        (st.fdl_cursor + sigs.length) % K := by
  induction sigs with
  | nil =>
      intro st hc _
      simp only [run_engine, List.foldl_nil, List.length_nil, Nat.add_zero]
      exact (Nat.mod_eq_of_lt hc).symm
  | cons sig rest ih =>
      intro st hc hall
      rw [run_engine_cons] at hall ⊢
      simp only [all_ok, List.mem_cons] at hall
      have hok1 : ((convolve C Cin B fs K fd hmode h2B st sig).2).isOk = true :=
        hall _ (Or.inl rfl)
      have hcur1 := convolve_cursor_of_ok C Cin B fs K fd hmode h2B st sig hok1
      have hlt1 : ((convolve C Cin B fs K fd hmode h2B st sig).1).fdl_cursor < K := by
        rw [hcur1]
        exact Nat.mod_lt _ (Nat.pos_of_neZero K)
      have hrest : all_ok ((run_engine C Cin B fs K fd hmode h2B
          (convolve C Cin B fs K fd hmode h2B st sig).1 rest).2) := by
        intro r hr
        exact hall r (Or.inr hr)
      have := ih (convolve C Cin B fs K fd hmode h2B st sig).1 hlt1 hrest
      simp only [this, hcur1, List.length_cons]
      rw [Nat.mod_add_mod]
      ring_nf

/-- C7: the cursor starts at `0`, stays in `[0, K)` across calls, is advanced
by exactly `1` modulo `K` on every successful `convolve` call (and only
then), with the FDL write and the MAC both using the pre-advance cursor (the
explicit success shape); after `K` consecutive successful calls it returns to
its starting value; the GPU driver advances it identically.  A failed call
leaves it unchanged. -/
theorem claim_C7_cursor_invariant {R : Type} [CommRing R] (C Cin B fs K : ℕ)
    [NeZero fs] [NeZero B] [NeZero Cin] [NeZero K] (fd : FFTData R)
    (hmode : Cin = 1 ∨ Cin = C) (h2B : 2 * B ≤ fs) :
    (∀ (FL : ℕ) (filt : Fin C → Fin FL → R),
      (init_state (R := R) C Cin FL B K fs fd.w filt).fdl_cursor = 0 ∧
        (init_state (R := R) C Cin FL B K fs fd.w filt).fdl_cursor < K) ∧
    (∀ (st : PCState R C Cin fs K) (sig : RawSignal R), st.fdl_cursor < K →
      ((convolve C Cin B fs K fd hmode h2B st sig).1).fdl_cursor < K) ∧
    (∀ (st : PCState R C Cin fs K) (sig : RawSignal R),
      ((convolve C Cin B fs K fd hmode h2B st sig).2).isOk = true →
      ((convolve C Cin B fs K fd hmode h2B st sig).1).fdl_cursor =
        (st.fdl_cursor + 1) % K) ∧
    (∀ (st : PCState R C Cin fs K) (sig : RawSignal R) (e : String),
      ((convolve C Cin B fs K fd hmode h2B st sig).2) = Except.error e →
      ((convolve C Cin B fs K fd hmode h2B st sig).1).fdl_cursor = st.fdl_cursor) ∧
    (∀ (st : PCState R C Cin fs K) (sigs : List (RawSignal R)),
      st.fdl_cursor < K → sigs.length = K →
      all_ok ((run_engine C Cin B fs K fd hmode h2B st sigs).2) →
      ((run_engine C Cin B fs K fd hmode h2B st sigs).1).fdl_cursor =
        st.fdl_cursor) ∧
    (∀ (st : PCState R C Cin fs K) (sig : RawSignal R),
      signal_accepted Cin B sig →
      ((convolve_gpu C Cin B fs K fd hmode h2B st sig).1).fdl_cursor =
        (st.fdl_cursor + 1) % K) ∧
    (∀ (st : PCState R C Cin fs K) (sig : RawSignal R) (e : String),
      ((convolve_gpu C Cin B fs K fd hmode h2B st sig).2) = Except.error e →
      ((convolve_gpu C Cin B fs K fd hmode h2B st sig).1).fdl_cursor =
        st.fdl_cursor) := by
  have herr : ∀ (st : PCState R C Cin fs K) (sig : RawSignal R) (e : String),
      ((convolve C Cin B fs K fd hmode h2B st sig).2) = Except.error e →
      (convolve C Cin B fs K fd hmode h2B st sig).1 = st := by
    intro st sig e he
    by_cases hacc : signal_accepted Cin B sig
    · rw [convolve_ok_eq C Cin B fs K fd hmode h2B st sig hacc] at he
      exact absurd he (by simp)
    · obtain ⟨e2, he2⟩ := convolve_rejected C Cin B fs K fd hmode h2B st sig hacc
      rw [he2]
  refine ⟨?_, ?_, ?_, ?_, ?_, ?_, ?_⟩
  · intro FL filt
    exact ⟨rfl, Nat.pos_of_neZero K⟩
  · intro st sig hc
    by_cases hacc : signal_accepted Cin B sig
    · rw [convolve_ok_eq C Cin B fs K fd hmode h2B st sig hacc]
      exact Nat.mod_lt _ (Nat.pos_of_neZero K)
    · obtain ⟨e, he⟩ := convolve_rejected C Cin B fs K fd hmode h2B st sig hacc
      rw [he]
      exact hc
  · intro st sig hok
    exact convolve_cursor_of_ok C Cin B fs K fd hmode h2B st sig hok
  · intro st sig e he
    rw [herr st sig e he]
  · intro st sigs hc hlen hall
    rw [run_engine_cursor C Cin B fs K fd hmode h2B sigs st hc hall, hlen,
      Nat.add_mod_right]
    exact Nat.mod_eq_of_lt hc
  · intro st sig hacc
    exact (convolve_gpu_cursor_ok C Cin B fs K fd hmode h2B st sig hacc).1
  · intro st sig e he
    by_cases hacc : signal_accepted Cin B sig
    · have := (convolve_gpu_cursor_ok C Cin B fs K fd hmode h2B st sig hacc).2
      rw [he] at this
      exact absurd this (by simp [Except.isOk, Except.toBool])
    · by_cases hsh : sig.dims = [Cin, B] ∨ (sig.dims = [B] ∧ Cin = 1)
      · have hdt : ¬(sig.dtype = Dtype.float32_torch ∨ sig.dtype = Dtype.float32_np) := by
          intro hdt
          exact hacc ⟨hsh, hdt⟩
        rw [convolve_gpu_of_parse_error C Cin B fs K fd hmode h2B st sig _
          (parse_input_bad_dtype Cin B fs fd.w st.input_buffer_td sig hsh hdt)]
      · rw [convolve_gpu_of_parse_error C Cin B fs K fd hmode h2B st sig _
          (parse_input_bad_shape Cin B fs fd.w st.input_buffer_td sig hsh)]

/-- Witness for C7 at `C = Cin = 1`, `B = 1`, `fft_size = 2`, `K = 1`: the
run-of-`K` conjunct instantiates on one accepted call (hypotheses discharged
concretely), and the final cursor directly evaluates to `0`. -/
theorem claim_C7_cursor_invariant_witness :
    ((2 * 1 ≤ 2) ∧ (0 : ℕ) < 1 ∧
      ([raw_of 1 1 (fun _ _ => (5 : ℚ))].length = 1) ∧
      all_ok ((run_engine 1 1 1 2 1 ⟨1, 1, 1, RingHom.id ℚ⟩ (Or.inl rfl) (by omega)
        (init_state 1 1 1 1 1 2 1 (fun _ _ => 1))
        [raw_of 1 1 (fun _ _ => (5 : ℚ))]).2)) ∧
    ((run_engine 1 1 1 2 1 ⟨1, 1, 1, RingHom.id ℚ⟩ (Or.inl rfl) (by omega)
        (init_state 1 1 1 1 1 2 1 (fun _ _ => 1))
        [raw_of 1 1 (fun _ _ => (5 : ℚ))]).1).fdl_cursor =
      (init_state (R := ℚ) 1 1 1 1 1 2 1 (fun _ _ => 1)).fdl_cursor ∧
    ((run_engine 1 1 1 2 1 ⟨1, 1, 1, RingHom.id ℚ⟩ (Or.inl rfl) (by omega)
        (init_state 1 1 1 1 1 2 1 (fun _ _ => 1))
        [raw_of 1 1 (fun _ _ => (5 : ℚ))]).1).fdl_cursor = 0 :=
  ⟨⟨by omega, by omega, by with_unfolding_all decide, by with_unfolding_all decide⟩,
   (claim_C7_cursor_invariant 1 1 1 2 1 ⟨1, 1, 1, RingHom.id ℚ⟩ (Or.inl rfl)
       (by omega)).2.2.2.2.1
     (init_state 1 1 1 1 1 2 1 (fun _ _ => 1)) [raw_of 1 1 (fun _ _ => (5 : ℚ))]
     (by with_unfolding_all decide) (by with_unfolding_all decide)
     (by with_unfolding_all decide),
   by with_unfolding_all decide⟩

/-- C8: a successful `convolve` writes the current input spectrum (the rfft
of the freshly shifted framer buffer) into FDL ring slot `fdl_cursor`
unconditionally, leaves every other ring slot untouched, and never mutates
the filter-spectrum table (on success or failure). -/
theorem claim_C8_frame_effect {R : Type} [CommRing R] (C Cin B fs K : ℕ)
    [NeZero fs] [NeZero B] [NeZero Cin] (fd : FFTData R)
    (hmode : Cin = 1 ∨ Cin = C) (h2B : 2 * B ≤ fs) :
    (∀ (st : PCState R C Cin fs K) (sig : RawSignal R),
      signal_accepted Cin B sig →
      ∀ (ci : Fin Cin) (m : Fin (num_bins fs)) (hc : st.fdl_cursor < K),
        ((convolve C Cin B fs K fd hmode h2B st sig).1).fdl ci m ⟨st.fdl_cursor, hc⟩ =
          rfft_bins fs fd.w
            (roll_update Cin B fs st.input_buffer_td
              (fun ci2 b => sig.data ci2.val b.val) ci) m) ∧
    (∀ (st : PCState R C Cin fs K) (sig : RawSignal R),
      signal_accepted Cin B sig →
      ∀ (ci : Fin Cin) (m : Fin (num_bins fs)) (k : Fin K), k.val ≠ st.fdl_cursor →
        ((convolve C Cin B fs K fd hmode h2B st sig).1).fdl ci m k =
          st.fdl ci m k) ∧
    (∀ (st : PCState R C Cin fs K) (sig : RawSignal R),
      ((convolve C Cin B fs K fd hmode h2B st sig).1).filters_fd = st.filters_fd) := by
  refine ⟨?_, ?_, ?_⟩
  · intro st sig hacc ci m hc
    rw [convolve_ok_eq C Cin B fs K fd hmode h2B st sig hacc]
    simp [write_fdl]
  · intro st sig hacc ci m k hk
    rw [convolve_ok_eq C Cin B fs K fd hmode h2B st sig hacc]
    simp [write_fdl, hk]
  · intro st sig
    by_cases hacc : signal_accepted Cin B sig
    · rw [convolve_ok_eq C Cin B fs K fd hmode h2B st sig hacc]
    · obtain ⟨e, he⟩ := convolve_rejected C Cin B fs K fd hmode h2B st sig hacc
      rw [he]

/-- Witness for C8 at `C = Cin = 1`, `B = 1`, `fft_size = 2`, `K = 2`: one
accepted call on the fresh engine writes slot `0` and leaves slot `1` at
zero; the written slot evaluates to the spectrum `[5, 5]` of the window
`[0, 5]`. -/
theorem claim_C8_frame_effect_witness :
    (signal_accepted (R := ℚ) 1 1 (raw_of 1 1 (fun _ _ => (5 : ℚ)))) ∧
    ((convolve 1 1 1 2 2 ⟨1, 1, 1, RingHom.id ℚ⟩ (Or.inl rfl) (by omega)
        (init_state 1 1 1 1 2 2 1 (fun _ _ => 1))
        (raw_of 1 1 (fun _ _ => (5 : ℚ)))).1).fdl 0 ⟨0, by decide⟩
      ⟨(init_state (R := ℚ) 1 1 1 1 2 2 1 (fun _ _ => 1)).fdl_cursor, by decide⟩ =
      rfft_bins 2 (1 : ℚ)
        (roll_update 1 1 2
          (init_state (R := ℚ) 1 1 1 1 2 2 1 (fun _ _ => 1)).input_buffer_td
          (fun _ _ => 5) 0) ⟨0, by decide⟩ ∧
    ((convolve 1 1 1 2 2 ⟨1, 1, 1, RingHom.id ℚ⟩ (Or.inl rfl) (by omega)
        (init_state 1 1 1 1 2 2 1 (fun _ _ => 1))
        (raw_of 1 1 (fun _ _ => (5 : ℚ)))).1).fdl 0 ⟨0, by decide⟩ ⟨1, by omega⟩ = 0 ∧
    ((convolve 1 1 1 2 2 ⟨1, 1, 1, RingHom.id ℚ⟩ (Or.inl rfl) (by omega)
        (init_state 1 1 1 1 2 2 1 (fun _ _ => 1))
        (raw_of 1 1 (fun _ _ => (5 : ℚ)))).1).fdl 0 ⟨0, by decide⟩ ⟨0, by omega⟩ = 5 :=
  ⟨by with_unfolding_all decide,
   (claim_C8_frame_effect 1 1 1 2 2 ⟨1, 1, 1, RingHom.id ℚ⟩ (Or.inl rfl)
       (by omega)).1
     (init_state 1 1 1 1 2 2 1 (fun _ _ => 1)) (raw_of 1 1 (fun _ _ => (5 : ℚ)))
     (by with_unfolding_all decide) 0 ⟨0, by decide⟩ (by decide),
   by with_unfolding_all decide, by with_unfolding_all decide⟩

/-- C9: a `convolve` call that fails per-call validation (wrong shape or
dtype, including a 1-D input of length `B` when `Cin ≠ 1`) raises before
mutating any engine state: the full state (framer buffer, FDL, cursor,
filter table) is returned unchanged, so the engine remains usable; moreover
a call returns an error exactly when the signal fails the shape/dtype
validation. -/
theorem claim_C9_validation_preserves_state {R : Type} [CommRing R]
    (C Cin B fs K : ℕ) [NeZero fs] [NeZero B] [NeZero Cin] (fd : FFTData R)
    (hmode : Cin = 1 ∨ Cin = C) (h2B : 2 * B ≤ fs) :
    (∀ (st : PCState R C Cin fs K) (sig : RawSignal R) (e : String),
      ((convolve C Cin B fs K fd hmode h2B st sig).2) = Except.error e →
      (convolve C Cin B fs K fd hmode h2B st sig).1 = st) ∧
    (∀ (st : PCState R C Cin fs K) (sig : RawSignal R),
      ¬ signal_accepted Cin B sig →
      ∃ e, convolve C Cin B fs K fd hmode h2B st sig = (st, Except.error e)) ∧
    (∀ (st : PCState R C Cin fs K) (sig : RawSignal R),
      sig.dims = [B] → Cin ≠ 1 →
      ∃ e, convolve C Cin B fs K fd hmode h2B st sig = (st, Except.error e)) ∧
    (∀ (st : PCState R C Cin fs K) (sig : RawSignal R),
      ((convolve C Cin B fs K fd hmode h2B st sig).2).isOk = true ↔
        signal_accepted Cin B sig) := by
  have herr : ∀ (st : PCState R C Cin fs K) (sig : RawSignal R) (e : String),
      ((convolve C Cin B fs K fd hmode h2B st sig).2) = Except.error e →
      (convolve C Cin B fs K fd hmode h2B st sig).1 = st := by
    intro st sig e he
    by_cases hacc : signal_accepted Cin B sig
    · rw [convolve_ok_eq C Cin B fs K fd hmode h2B st sig hacc] at he
      exact absurd he (by simp)
    · obtain ⟨e2, he2⟩ := convolve_rejected C Cin B fs K fd hmode h2B st sig hacc
      rw [he2]
  refine ⟨herr, ?_, ?_, ?_⟩
  · intro st sig hacc
    exact convolve_rejected C Cin B fs K fd hmode h2B st sig hacc
  · intro st sig hdims hCin
    refine convolve_rejected C Cin B fs K fd hmode h2B st sig ?_
    intro hacc
    rcases hacc.1 with h1 | h2
    · rw [hdims] at h1
      exact absurd (congrArg List.length h1) (by simp)
    · exact hCin h2.2
  · intro st sig
    exact convolve_isOk_iff C Cin B fs K fd hmode h2B st sig

/-- Witness for C9 at `C = Cin = 2`, `B = 3`, `fft_size = 6`, `K = 1`
(matched mode): a 1-D signal of length `B = 3` is rejected because
`Cin ≠ 1`, and the engine state after the failed call evaluates to exactly
the prior state. -/
theorem claim_C9_validation_preserves_state_witness :
    ((RawSignal.mk Dtype.float32_torch [3] (fun _ _ => (7 : ℚ))).dims = [3] ∧
      (2 : ℕ) ≠ 1) ∧
    (∃ e, convolve 2 2 3 6 1 ⟨1, 1, 1, RingHom.id ℚ⟩ (Or.inr rfl) (by omega)
      (init_state 2 2 2 3 1 6 1 (fun _ _ => 1))
      (RawSignal.mk Dtype.float32_torch [3] (fun _ _ => (7 : ℚ))) =
      (init_state 2 2 2 3 1 6 1 (fun _ _ => 1), Except.error e)) ∧
    (convolve 2 2 3 6 1 ⟨1, 1, 1, RingHom.id ℚ⟩ (Or.inr rfl) (by omega)
      (init_state 2 2 2 3 1 6 1 (fun _ _ => 1))
      (RawSignal.mk Dtype.float32_torch [3] (fun _ _ => (7 : ℚ)))).1 =
      init_state 2 2 2 3 1 6 1 (fun _ _ => 1) ∧
    ((convolve 2 2 3 6 1 ⟨1, 1, 1, RingHom.id ℚ⟩ (Or.inr rfl) (by omega)
      (init_state 2 2 2 3 1 6 1 (fun _ _ => 1))
      (RawSignal.mk Dtype.float32_torch [3] (fun _ _ => (7 : ℚ)))).2).isOk = false :=
  ⟨⟨rfl, by omega⟩,
   (claim_C9_validation_preserves_state 2 2 3 6 1 ⟨1, 1, 1, RingHom.id ℚ⟩
       (Or.inr rfl) (by omega)).2.2.1
     (init_state 2 2 2 3 1 6 1 (fun _ _ => 1))
     (RawSignal.mk Dtype.float32_torch [3] (fun _ _ => (7 : ℚ))) rfl (by omega),
   by with_unfolding_all decide, by with_unfolding_all decide⟩

/-- C10: constructing with `block_length_samples = 0` and a well-formed 2-D
filter raises an unguarded `ZeroDivisionError` from `K = ceil(FL / B)`, which
is evaluated before the block-length validity check, so the documented
block-length `ValueError` branch is never the outcome for `B = 0`; any other
`B < 1` (necessarily negative) still fails construction, via the
block-length `ValueError` instead. -/
theorem claim_C10_init_zero_division :
    (∀ (C FL : ℕ) (fft : Option ℤ) (nic : ℤ) (dev : String),
      engine_init C FL 0 fft nic dev = Except.error PyErr.zeroDivision) ∧
    (∀ (C FL : ℕ) (fft : Option ℤ) (nic : ℤ) (dev : String),
      engine_init C FL 0 fft nic dev ≠
        Except.error (PyErr.valueError "The block length must be greater than 1.")) ∧
    (∀ (C FL : ℕ) (fft : Option ℤ) (nic : ℤ) (dev : String) (B : ℤ),
      B < 0 → engine_init C FL B fft nic dev =
        Except.error (PyErr.valueError "The block length must be greater than 1.")) := by
  refine ⟨?_, ?_, ?_⟩
  · intro C FL fft nic dev
    simp [engine_init]
  · intro C FL fft nic dev
    simp [engine_init]
  · intro C FL fft nic dev B hB
    have hB0 : ¬ B = 0 := by omega
    have hFLB : ¬ ((FL : ℤ) < B) := by
      have : (0 : ℤ) ≤ (FL : ℤ) := Int.natCast_nonneg FL
      omega
    simp only [engine_init, if_neg hB0, if_neg hFLB, if_pos (by omega : B < 1)]

/-- Witness for C10: at `C = 1`, `FL = 4`, default FFT size, one input
channel, device `cpu`, construction with `B = 0` evaluates to
`ZeroDivisionError`, and construction with `B = -2` evaluates to the
block-length `ValueError` (hypothesis `-2 < 0` discharged concretely). -/
theorem claim_C10_init_zero_division_witness :
    engine_init 1 4 0 Option.none 1 "cpu" = Except.error PyErr.zeroDivision ∧
    ((-2 : ℤ) < 0) ∧
    engine_init 1 4 (-2) Option.none 1 "cpu" =
      Except.error (PyErr.valueError "The block length must be greater than 1.") :=
  ⟨(claim_C10_init_zero_division).1 1 4 Option.none 1 "cpu",
   by omega,
   (claim_C10_init_zero_division).2.2 1 4 Option.none 1 "cpu" (-2) (by omega)⟩

/-- C4 (amended): the filter-spectrum table produced at construction is
stored with channels outermost, indexed `[c, m, k]` with numpy shape
`(C, num_bins, K)` — the partition axis is the innermost (last) logical
axis, matching how `cpu_multiply` consumes it (`_, _, K = filters_fd.shape`
and slices `filters_fd[:, :, k]`).  Every plane has `num_bins` rows of `K`
entries, for any input filter list. -/
theorem claim_C4_table_layout {R : Type} [CommRing R] (w : R) (B K fs : ℕ)
    (filter_td : List (List R)) :
    (create_filter_blocks_list w B K fs filter_td).length = filter_td.length ∧
    (∀ plane ∈ create_filter_blocks_list w B K fs filter_td,
      plane.length = num_bins fs ∧ ∀ row ∈ plane, row.length = K) := by
  constructor
  · simp [create_filter_blocks_list]
  · intro plane hplane
    simp only [create_filter_blocks_list, List.mem_map] at hplane
    obtain ⟨chm, _, rfl⟩ := hplane
    constructor
    · simp
    · intro row hrow
      simp only [List.mem_map] at hrow
      obtain ⟨m, _, rfl⟩ := hrow
      simp

/-- Counterexample for C4 as stated: with `C = 2`, `FL = 3`, `B = 1`
(`K = 3`), `fft_size = 2` (`num_bins = 2`), the stored table has numpy shape
`(C, num_bins, K) = (2, 2, 3)`, not the claimed `(K, num_bins, C) = (3, 2, 2)`. -/
theorem claim_C4_counterexample :
    shape3 (create_filter_blocks_list (-1 : ℚ) 1 3 2 [[1, 0, 0], [0, 1, 0]]) =
      (2, 2, 3) ∧
    shape3 (create_filter_blocks_list (-1 : ℚ) 1 3 2 [[1, 0, 0], [0, 1, 0]]) ≠
      (3, 2, 2) := by
  constructor
  · with_unfolding_all decide
  · with_unfolding_all decide

theorem pow_mod_eq {R : Type} [CommRing R] (n : ℕ) (w : R) (hw : w ^ n = 1)
    (a : ℕ) : w ^ (a % n) = w ^ a := by
  conv_rhs => rw [← Nat.div_add_mod a n]
  rw [pow_add, pow_mul, hw, one_pow, one_mul]

theorem wpow_natCast {R : Type} [CommRing R] (n : ℕ) (w : R) (hw : w ^ n = 1)
    (a : ℕ) : wpow n w (a : ℤ) = w ^ a := by
  unfold wpow
  rw [← Int.natCast_mod, Int.toNat_natCast]
  exact pow_mod_eq n w hw a

theorem wpow_congr {R : Type} [CommRing R] (n : ℕ) (w : R) (a b : ℤ)
    (h : a % (n : ℤ) = b % (n : ℤ)) : wpow n w a = wpow n w b := by
  unfold wpow
  rw [h]

theorem wpow_zero {R : Type} [CommRing R] (n : ℕ) (w : R) : wpow n w 0 = 1 := by
  simp [wpow]

theorem wpow_add {R : Type} [CommRing R] (n : ℕ) [NeZero n] (w : R)
    (hw : w ^ n = 1) (a b : ℤ) :
    wpow n w (a + b) = wpow n w a * wpow n w b := by
  have hn := Nat.pos_of_neZero n
  have hnz : (n : ℤ) ≠ 0 := by exact_mod_cast hn.ne'
  have ha : (((a % (n : ℤ)).toNat : ℤ)) = a % (n : ℤ) :=
    Int.toNat_of_nonneg (Int.emod_nonneg a hnz)
  have hb : (((b % (n : ℤ)).toNat : ℤ)) = b % (n : ℤ) :=
    Int.toNat_of_nonneg (Int.emod_nonneg b hnz)
  have hcong : (a + b) % (n : ℤ) =
      (((a % (n : ℤ)).toNat + (b % (n : ℤ)).toNat : ℕ) : ℤ) % (n : ℤ) := by
    push_cast
    rw [ha, hb]
    exact Int.add_emod a b (n : ℤ)
  rw [wpow_congr n w _ _ hcong,
    wpow_natCast n w hw ((a % (n : ℤ)).toNat + (b % (n : ℤ)).toNat), pow_add]
  rfl

theorem sum_wpow_orth {R : Type} [CommRing R] (n : ℕ) [NeZero n] (w : R)
    (hw : w ^ n = 1)
    (horth : ∀ d : ℕ, 0 < d → d < n → (∑ m : Fin n, w ^ (m.val * d)) = 0)
    (d : ℤ) :
    (∑ m : Fin n, wpow n w ((m.val : ℤ) * d)) =
      if d % (n : ℤ) = 0 then (n : R) else 0 := by
  have hn := Nat.pos_of_neZero n
  have hnz : (n : ℤ) ≠ 0 := by exact_mod_cast hn.ne'
  have hnn : (0 : ℤ) ≤ d % (n : ℤ) := Int.emod_nonneg d hnz
  have hr : (((d % (n : ℤ)).toNat : ℤ)) = d % (n : ℤ) := Int.toNat_of_nonneg hnn
  have hrlt : (d % (n : ℤ)).toNat < n := by
    have := Int.emod_lt_of_pos d (by exact_mod_cast hn : (0 : ℤ) < (n : ℤ))
    omega
  have hterm : ∀ m : Fin n, wpow n w ((m.val : ℤ) * d) =
      w ^ (m.val * (d % (n : ℤ)).toNat) := by
    intro m
    have hcong : ((m.val : ℤ) * d) % (n : ℤ) =
        ((m.val * (d % (n : ℤ)).toNat : ℕ) : ℤ) % (n : ℤ) := by
      push_cast
      rw [hr, Int.mul_emod ((m.val : ℤ)) d (n : ℤ), Int.mul_emod ((m.val : ℤ)) (d % (n:ℤ)) (n : ℤ),
        Int.emod_emod_of_dvd d (dvd_refl _)]
    rw [wpow_congr n w _ _ hcong, wpow_natCast n w hw]
  rw [Finset.sum_congr rfl (fun m _ => hterm m)]
  by_cases hr0 : (d % (n : ℤ)).toNat = 0
  · rw [if_pos (by omega)]
    simp only [hr0, Nat.mul_zero, pow_zero]
    rw [Finset.sum_const, Finset.card_univ, Fintype.card_fin, nsmul_eq_mul, mul_one]
  · rw [if_neg (by omega)]
    exact horth _ (by omega) hrlt

theorem idft_sum {R : Type} [CommRing R] (n K2 : ℕ) (w invN : R)
    (F : Fin K2 → Fin n → R) (j : Fin n) :
    idft n w invN (fun m => ∑ k : Fin K2, F k m) j =
      ∑ k : Fin K2, idft n w invN (F k) j := by
  simp only [idft]
  simp only [Finset.sum_mul]
  rw [Finset.sum_comm, Finset.mul_sum]

theorem sub_emod_zero_iff (n : ℕ) [NeZero n] (t s j : Fin n) :
    (((t.val : ℤ) + s.val - j.val) % (n : ℤ) = 0) ↔ s = j - t := by
  have hcast : (((t.val : ℤ) + s.val - j.val) % (n : ℤ) = 0) ↔
      ((t.val + s.val) % n : ℕ) = j.val := by
    rw [← Int.emod_eq_emod_iff_emod_sub_eq_zero]
    rw [show ((t.val : ℤ) + s.val) = ((t.val + s.val : ℕ) : ℤ) by push_cast; ring,
      ← Int.natCast_mod, ← Int.natCast_mod, Nat.cast_inj,
      Nat.mod_eq_of_lt j.isLt]
  rw [hcast]
  constructor
  · intro h
    have hadd : t + s = j := Fin.ext (by rw [Fin.val_add]; exact h)
    exact eq_sub_of_add_eq (by rwa [add_comm] at hadd)
  · rintro rfl
    show (t.val + (j - t).val) % n = j.val
    rw [Fin.sub_def]
    have h1 : (t.val + (n - t.val + j.val) % n) % n = (t.val + (n - t.val + j.val)) % n :=
      Nat.add_mod_mod t.val (n - t.val + j.val) n
    have h2 : t.val + (n - t.val + j.val) = n + j.val := by
      have := t.isLt
      omega
    rw [h1, h2, Nat.add_mod_left, Nat.mod_eq_of_lt j.isLt]

theorem idft_dft_mul {R : Type} [CommRing R] (n : ℕ) [NeZero n] (w invN : R)
    (hw : w ^ n = 1)
    (horth : ∀ d : ℕ, 0 < d → d < n → (∑ m : Fin n, w ^ (m.val * d)) = 0)
    (hinv : invN * (n : R) = 1) (a b : Fin n → R) (j : Fin n) :
    idft n w invN (fun m => dft n w a m * dft n w b m) j = circ_conv n a b j := by
  simp only [idft, dft, circ_conv]
  have step1 : ∀ m : Fin n,
      (∑ t : Fin n, a t * wpow n w ((m.val : ℤ) * (t.val : ℤ))) *
        (∑ s : Fin n, b s * wpow n w ((m.val : ℤ) * (s.val : ℤ))) *
        wpow n w (-((m.val * j.val : ℕ) : ℤ)) =
      ∑ t : Fin n, ∑ s : Fin n,
        a t * b s * wpow n w ((m.val : ℤ) * ((t.val : ℤ) + s.val - j.val)) := by
    intro m
    rw [Finset.sum_mul_sum]
    simp only [Finset.sum_mul]
    refine Finset.sum_congr rfl fun t _ => Finset.sum_congr rfl fun s _ => ?_
    have hexp : wpow n w ((m.val : ℤ) * (t.val : ℤ)) *
        wpow n w ((m.val : ℤ) * (s.val : ℤ)) *
        wpow n w (-((m.val * j.val : ℕ) : ℤ)) =
        wpow n w ((m.val : ℤ) * ((t.val : ℤ) + s.val - j.val)) := by
      rw [← wpow_add n w hw, ← wpow_add n w hw]
      congr 1
      push_cast
      ring
    rw [← hexp]
    ring
  rw [Finset.sum_congr rfl (fun m _ => step1 m), Finset.sum_comm]
  have step2 : ∀ t : Fin n,
      (∑ m : Fin n, ∑ s : Fin n,
        a t * b s * wpow n w ((m.val : ℤ) * ((t.val : ℤ) + s.val - j.val))) =
      a t * b (j - t) * (n : R) := by
    intro t
    rw [Finset.sum_comm]
    have hinner : ∀ s : Fin n,
        (∑ m : Fin n,
          a t * b s * wpow n w ((m.val : ℤ) * ((t.val : ℤ) + s.val - j.val))) =
        a t * b s * (if s = j - t then (n : R) else 0) := by
      intro s
      rw [← Finset.mul_sum,
        sum_wpow_orth n w hw horth ((t.val : ℤ) + s.val - j.val)]
      congr 1
      rw [if_congr (sub_emod_zero_iff n t s j) rfl rfl]
    rw [Finset.sum_congr rfl (fun s _ => hinner s)]
    simp only [mul_ite, mul_zero]
    rw [Finset.sum_ite_eq' Finset.univ (j - t)
      (fun s => a t * b s * (n : R))]
    simp
  rw [Finset.sum_congr rfl (fun t _ => step2 t), Finset.mul_sum]
  refine Finset.sum_congr rfl fun t _ => ?_
  calc invN * (a t * b (j - t) * (n : R))
      = a t * b (j - t) * (invN * (n : R)) := by ring
    _ = a t * b (j - t) := by rw [hinv, mul_one]


theorem conj_w_eq {R : Type} [CommRing R] (n : ℕ) [NeZero n] (w : R)
    (conj : R →+* R) (hw : w ^ n = 1) (hcw : conj w * w = 1) :
    conj w = w ^ (n - 1) := by
  have hn := Nat.pos_of_neZero n
  have hsplit : w * w ^ (n - 1) = 1 := by
    rw [← pow_succ', show n - 1 + 1 = n by omega, hw]
  calc conj w = conj w * (w * w ^ (n - 1)) := by rw [hsplit, mul_one]
    _ = (conj w * w) * w ^ (n - 1) := by ring
    _ = w ^ (n - 1) := by rw [hcw, one_mul]

theorem conj_wpow {R : Type} [CommRing R] (n : ℕ) [NeZero n] (w : R)
    (conj : R →+* R) (hw : w ^ n = 1) (hcw : conj w * w = 1) (z : ℤ) :
    conj (wpow n w z) = wpow n w (-z) := by
  have hn := Nat.pos_of_neZero n
  have hnz : (n : ℤ) ≠ 0 := by
    have : (0 : ℤ) < (n : ℤ) := by exact_mod_cast hn
    omega
  have hz : (((z % (n : ℤ)).toNat : ℤ)) = z % (n : ℤ) :=
    Int.toNat_of_nonneg (Int.emod_nonneg z hnz)
  calc conj (wpow n w z) = (conj w) ^ (z % (n : ℤ)).toNat := by
        rw [wpow, map_pow]
    _ = w ^ ((n - 1) * (z % (n : ℤ)).toNat) := by
        rw [conj_w_eq n w conj hw hcw, ← pow_mul]
    _ = wpow n w (((n - 1) * (z % (n : ℤ)).toNat : ℕ) : ℤ) :=
        (wpow_natCast n w hw _).symm
    _ = wpow n w (-z) := by
        refine wpow_congr n w _ _ ?_
        rw [Int.emod_eq_emod_iff_emod_sub_eq_zero]
        have hval : (((n - 1) * (z % (n : ℤ)).toNat : ℕ) : ℤ) - (-z) =
            (z - z % (n : ℤ)) + (z % (n : ℤ)) * (n : ℤ) := by
          push_cast [Nat.cast_sub (by omega : 1 ≤ n), hz]
          ring
        rw [hval, Int.add_mul_emod_self]
        rw [Int.sub_emod, Int.emod_emod_of_dvd z (dvd_refl _), sub_self,
          Int.zero_emod]

theorem dft_conj_symm {R : Type} [CommRing R] (n : ℕ) [NeZero n] (w : R)
    (conj : R →+* R) (hw : w ^ n = 1) (hcw : conj w * w = 1)
    (x : Fin n → R) (hx : ∀ t, conj (x t) = x t) (q : Fin n) (hq : 0 < q.val) :
    conj (dft n w x ⟨n - q.val, by have := q.isLt; omega⟩) = dft n w x q := by
  simp only [dft]
  rw [map_sum]
  refine Finset.sum_congr rfl fun t _ => ?_
  rw [map_mul, hx, conj_wpow n w conj hw hcw]
  congr 1
  refine wpow_congr n w _ _ ?_
  rw [Int.emod_eq_emod_iff_emod_sub_eq_zero]
  have hval : -(((n - q.val : ℕ) : ℤ) * (t.val : ℤ)) - (q.val : ℤ) * (t.val : ℤ) =
      (-(t.val : ℤ)) * (n : ℤ) := by
    push_cast [Nat.cast_sub (le_of_lt q.isLt)]
    ring
  rw [hval, Int.mul_emod_left]

theorem herm_ext_of_symm {R : Type} [CommRing R] (fs : ℕ)
    (hMfs : num_bins fs ≤ fs) (conj : R →+* R) (X : Fin fs → R)
    (hsymm : ∀ q : Fin fs, ∀ hq : 0 < q.val,
      conj (X ⟨fs - q.val, by have := q.isLt; omega⟩) = X q) (m' : Fin fs) :
    herm_ext (num_bins fs) fs conj
      (fun m => X ⟨m.val, lt_of_lt_of_le m.isLt hMfs⟩) m'.val = X m' := by
  by_cases hm : m'.val < num_bins fs
  · rw [herm_ext, dif_pos hm]
  · have hbound : fs - m'.val < num_bins fs := by
      have h1 := m'.isLt
      have h2 : fs < 2 * num_bins fs := by
        simp only [num_bins]
        omega
      omega
    rw [herm_ext, dif_neg hm, dif_pos hbound]
    have hm0 : 0 < m'.val := by
      have : 0 < num_bins fs := by simp [num_bins]
      omega
    exact hsymm m' hm0

theorem rfft_bins_eq_dft {R : Type} [CommRing R] (fs : ℕ)
    (hMfs : num_bins fs ≤ fs) (w : R) (v : Fin fs → R)
    (m : Fin (num_bins fs)) :
    rfft_bins fs w v m = dft fs w v ⟨m.val, lt_of_lt_of_le m.isLt hMfs⟩ := rfl

theorem spec_irfft_of_sum_products {R : Type} [CommRing R] (fs K2 : ℕ)
    [NeZero fs] (w invN : R) (conj : R →+* R) (hw : w ^ fs = 1)
    (horth : ∀ d : ℕ, 0 < d → d < fs → (∑ m : Fin fs, w ^ (m.val * d)) = 0)
    (hinv : invN * (fs : R) = 1) (hcw : conj w * w = 1)
    (hMfs : num_bins fs ≤ fs) (p x : Fin K2 → Fin fs → R)
    (hp : ∀ k t, conj (p k t) = p k t) (hx : ∀ k t, conj (x k t) = x k t)
    (j : Fin fs) :
    spec_irfft_n fs w invN conj
      (fun m => ∑ k : Fin K2, rfft_bins fs w (p k) m * rfft_bins fs w (x k) m) j =
      ∑ k : Fin K2, circ_conv fs (p k) (x k) j := by
  have hsymm : ∀ q : Fin fs, ∀ hq : 0 < q.val,
      conj ((fun m' => ∑ k : Fin K2, dft fs w (p k) m' * dft fs w (x k) m')
        ⟨fs - q.val, by have := q.isLt; omega⟩) =
      (fun m' => ∑ k : Fin K2, dft fs w (p k) m' * dft fs w (x k) m') q := by
    intro q hq
    simp only
    rw [map_sum]
    refine Finset.sum_congr rfl fun k _ => ?_
    rw [map_mul, dft_conj_symm fs w conj hw hcw (p k) (hp k) q hq,
      dft_conj_symm fs w conj hw hcw (x k) (hx k) q hq]
  have hY : (fun m : Fin (num_bins fs) =>
      ∑ k : Fin K2, rfft_bins fs w (p k) m * rfft_bins fs w (x k) m) =
      fun m => (fun m' => ∑ k : Fin K2, dft fs w (p k) m' * dft fs w (x k) m')
        ⟨m.val, lt_of_lt_of_le m.isLt hMfs⟩ := by
    funext m
    simp only
    refine Finset.sum_congr rfl fun k _ => ?_
    rw [rfft_bins_eq_dft fs hMfs, rfft_bins_eq_dft fs hMfs]
  rw [hY]
  have hstep : spec_irfft_n fs w invN conj
      (fun m => (fun m' => ∑ k : Fin K2, dft fs w (p k) m' * dft fs w (x k) m')
        ⟨m.val, lt_of_lt_of_le m.isLt hMfs⟩) j =
      idft fs w invN
        (fun m' => ∑ k : Fin K2, dft fs w (p k) m' * dft fs w (x k) m') j := by
    simp only [spec_irfft_n, idft]
    congr 1
    refine Finset.sum_congr rfl fun m' _ => ?_
    rw [herm_ext_of_symm fs hMfs conj
      (fun m' => ∑ k : Fin K2, dft fs w (p k) m' * dft fs w (x k) m') hsymm m']
  rw [hstep, idft_sum]
  refine Finset.sum_congr rfl fun k _ => ?_
  exact idft_dft_mul fs w invN hw horth hinv (p k) (x k) j

theorem irfft_torch_eq_spec {R : Type} [CommRing R] (fs : ℕ)
    (heven : fs = irfft_len fs) (u w invL : R) (hu : u = w) (conj : R →+* R)
    (Y : Fin (num_bins fs) → R) (j : Fin (irfft_len fs)) :
    irfft_torch fs u invL conj Y j =
      spec_irfft_n fs w invL conj Y ⟨j.val, by have h1 := j.isLt; omega⟩ := by
  have hsum : ∀ g : ℕ → R,
      (∑ m : Fin (irfft_len fs), g m.val) = ∑ m : Fin fs, g m.val := by
    intro g
    rw [Fin.sum_univ_eq_sum_range g, Fin.sum_univ_eq_sum_range g, ← heven]
  simp only [irfft_torch, spec_irfft_n]
  congr 1
  rw [hsum (fun mv => herm_ext (num_bins fs) (irfft_len fs) conj Y mv *
    wpow (irfft_len fs) u (-((mv * j.val : ℕ) : ℤ)))]
  refine Finset.sum_congr rfl fun m _ => ?_
  generalize (j.val : ℕ) = jv
  rw [← heven, hu]

/-- C5 (amended): for every accepted call on a configuration with an even
FFT size (in particular the default `fft_size = 2*B`), `convolve` returns
the `C x B` array of the last `B` samples, per channel, of the length-`N`
inverse real-to-complex FFT of the MAC output spectrum.  (For odd permitted
`fft_size` the claim fails: `torch.fft.irfft` then inverts a length-`N-1`
transform — see the counterexample.) -/
theorem claim_C5_output_reconstruction {R : Type} [CommRing R]
    (C Cin B fs K : ℕ) [NeZero fs] [NeZero B] [NeZero Cin] (fd : FFTData R)
    (hmode : Cin = 1 ∨ Cin = C) (h2B : 2 * B ≤ fs)
    (heven : fs = irfft_len fs) (hu : fd.u = fd.w)
    (st : PCState R C Cin fs K) (sig : RawSignal R)
    (hacc : signal_accepted Cin B sig) :
    (convolve C Cin B fs K fd hmode h2B st sig).2 =
      Except.ok (fun (c : Fin C) (i : Fin B) =>
        spec_irfft_n fs fd.w fd.invL fd.conj
          (output_fd_of hmode st.filters_fd
            (write_fdl st.fdl st.fdl_cursor
              (fun ci => rfft_bins fs fd.w
                (roll_update Cin B fs st.input_buffer_td
                  (fun ci b => sig.data ci.val b.val) ci)))
            st.fdl_cursor c)
          ⟨fs - B + i.val, by
            have h1 := i.isLt
            have h2 := Nat.pos_of_neZero B
            omega⟩) := by
  rw [convolve_ok_eq C Cin B fs K fd hmode h2B st sig hacc]
  show Except.ok _ = Except.ok _
  congr 1
  funext c i
  rw [irfft_torch_eq_spec fs heven fd.u fd.w fd.invL hu fd.conj]
  congr 1
  refine Fin.ext ?_
  show irfft_len fs - B + i.val = fs - B + i.val
  rw [← heven]

/-- Witness for C5 at the even default size `fft_size = 2`, `C = Cin = 1`,
`B = 1`, `K = 1`, real scalars (`w = -1`, `conj = id`): the theorem
instantiates, and the single output sample of a first call with input `[5]`
evaluates concretely on both sides. -/
theorem claim_C5_output_reconstruction_witness :
    ((2 * 1 ≤ 2) ∧ (2 = irfft_len 2) ∧
      signal_accepted (R := ℚ) 1 1 (raw_of 1 1 (fun _ _ => (5 : ℚ)))) ∧
    (convolve 1 1 1 2 1 ⟨-1, -1, 1/2, RingHom.id ℚ⟩ (Or.inl rfl) (by omega)
        (init_state 1 1 1 1 1 2 (-1) (fun _ _ => 1))
        (raw_of 1 1 (fun _ _ => (5 : ℚ)))).2 =
      Except.ok (fun (c : Fin 1) (i : Fin 1) =>
        spec_irfft_n 2 (-1 : ℚ) (1/2) (RingHom.id ℚ)
          (output_fd_of (Or.inl rfl)
            (init_state (R := ℚ) 1 1 1 1 1 2 (-1) (fun _ _ => 1)).filters_fd
            (write_fdl (init_state (R := ℚ) 1 1 1 1 1 2 (-1) (fun _ _ => 1)).fdl
              (init_state (R := ℚ) 1 1 1 1 1 2 (-1) (fun _ _ => 1)).fdl_cursor
              (fun ci => rfft_bins 2 (-1 : ℚ)
                (roll_update 1 1 2
                  (init_state (R := ℚ) 1 1 1 1 1 2 (-1) (fun _ _ => 1)).input_buffer_td
                  (fun ci b => (raw_of 1 1 (fun _ _ => (5 : ℚ))).data ci.val b.val) ci)))
            (init_state (R := ℚ) 1 1 1 1 1 2 (-1) (fun _ _ => 1)).fdl_cursor c)
          ⟨2 - 1 + i.val, by have := i.isLt; omega⟩) ∧
    (convolve 1 1 1 2 1 ⟨-1, -1, 1/2, RingHom.id ℚ⟩ (Or.inl rfl) (by omega)
        (init_state 1 1 1 1 1 2 (-1) (fun _ _ => 1))
        (raw_of 1 1 (fun _ _ => (5 : ℚ)))).2 =
      Except.ok (fun _ _ => (5 : ℚ)) :=
  ⟨⟨by omega, by decide, by with_unfolding_all decide⟩,
   claim_C5_output_reconstruction 1 1 1 2 1 ⟨-1, -1, 1/2, RingHom.id ℚ⟩
     (Or.inl rfl) (by omega) (by decide) rfl
     (init_state 1 1 1 1 1 2 (-1) (fun _ _ => 1))
     (raw_of 1 1 (fun _ _ => (5 : ℚ))) (by with_unfolding_all decide),
   by with_unfolding_all decide⟩

/-- Counterexample for C5 as stated: at the permitted odd FFT size
`fft_size = 3` (the constructor accepts it: `3 ≥ 2*B` with `B = 1`), the
second accepted call of the identity-filter engine returns `[3/2]`, while
the last `B = 1` samples of the honest length-3 inverse real-to-complex FFT
of the very same output spectrum are `[1]`.  `torch.fft.irfft` without an
explicit length argument inverts a length-`2*(num_bins-1) = 2` transform
instead of a length-3 one. -/
theorem claim_C5_counterexample :
    engine_init 1 1 1 (Option.some 3) 1 "cpu" =
      Except.ok ⟨1, 3, 2⟩ ∧
    (convolve 1 1 1 3 1 fft3_data (Or.inl rfl) (by omega) st1_odd one_block3).2 =
      Except.ok (fun _ _ => (⟨3/2, 0⟩ : Quad (-1) (-1))) ∧
    (fun (_ : Fin 1) (i : Fin 1) =>
        spec_irfft_n 3 zeta3 third3 (quad_conj (-1) (-1)) (mac_spec_odd 0)
          ⟨3 - 1 + i.val, by have := i.isLt; omega⟩) =
      (fun _ _ => (⟨1, 0⟩ : Quad (-1) (-1))) ∧
    (convolve 1 1 1 3 1 fft3_data (Or.inl rfl) (by omega) st1_odd one_block3).2 ≠
      Except.ok (fun (_ : Fin 1) (i : Fin 1) =>
        spec_irfft_n 3 zeta3 third3 (quad_conj (-1) (-1)) (mac_spec_odd 0)
          ⟨3 - 1 + i.val, by have := i.isLt; omega⟩) := by
  refine ⟨by with_unfolding_all decide, ?_, ?_, ?_⟩
  · with_unfolding_all decide
  · with_unfolding_all decide
  · with_unfolding_all decide

theorem stream_pad_nil {R : Type} [CommRing R] (Cin B : ℕ) [NeZero B]
    (ci : Fin Cin) (t : ℤ) : stream_pad Cin B ([] : List (Fin Cin → Fin B → R)) ci t = 0 := by
  simp [stream_pad]

theorem stream_pad_neg {R : Type} [CommRing R] (Cin B : ℕ) [NeZero B]
    (xs : List (Fin Cin → Fin B → R)) (ci : Fin Cin) (t : ℤ) (ht : t < 0) :
    stream_pad Cin B xs ci t = 0 := by
  rw [stream_pad, if_neg (by omega)]

theorem stream_pad_append_left {R : Type} [CommRing R] (Cin B : ℕ) [NeZero B]
    (xs : List (Fin Cin → Fin B → R)) (x : Fin Cin → Fin B → R) (ci : Fin Cin)
    (t : ℤ) (ht : t < (xs.length : ℤ) * B) :
    stream_pad Cin B (xs ++ [x]) ci t = stream_pad Cin B xs ci t := by
  by_cases h0 : 0 ≤ t
  · rw [stream_pad, stream_pad, if_pos h0, if_pos h0]
    have hB := Nat.pos_of_neZero B
    have hcast : ((xs.length * B : ℕ) : ℤ) = (xs.length : ℤ) * B := by push_cast; ring
    have htB : t.toNat < xs.length * B := by omega
    have hidx : t.toNat / B < xs.length := by
      rw [Nat.div_lt_iff_lt_mul hB]
      exact htB
    rw [List.getD_append _ _ _ _ hidx]
  · rw [stream_pad_neg _ _ _ _ _ (by omega), stream_pad_neg _ _ _ _ _ (by omega)]

theorem stream_pad_append_at {R : Type} [CommRing R] (Cin B : ℕ) [NeZero B]
    (xs : List (Fin Cin → Fin B → R)) (x : Fin Cin → Fin B → R) (ci : Fin Cin)
    (r : ℕ) (hr : r < B) :
    stream_pad Cin B (xs ++ [x]) ci ((xs.length : ℤ) * B + r) = x ci ⟨r, hr⟩ := by
  have hB := Nat.pos_of_neZero B
  rw [stream_pad, if_pos (by positivity)]
  have htn : ((xs.length : ℤ) * B + r).toNat = xs.length * B + r := by
    have hcast : ((xs.length * B : ℕ) : ℤ) = (xs.length : ℤ) * B := by push_cast; ring
    omega
  simp only [htn]
  have hdiv : (xs.length * B + r) / B = xs.length := by
    rw [Nat.mul_comm xs.length B, Nat.mul_add_div hB, Nat.div_eq_of_lt hr,
      Nat.add_zero]
  have hmod : (xs.length * B + r) % B = r := by
    rw [Nat.mul_comm xs.length B, Nat.mul_add_mod, Nat.mod_eq_of_lt hr]
  rw [hdiv, List.getD_append_right _ _ _ _ (le_refl _)]
  simp only [Nat.sub_self, List.getD_cons_zero]
  exact congrArg _ (Fin.ext hmod)

theorem window_z_nil {R : Type} [CommRing R] (Cin B fs : ℕ) [NeZero B]
    (ci : Fin Cin) (j : ℤ) :
    window_z Cin B fs ([] : List (Fin Cin → Fin B → R)) ci j = fun _ => 0 := by
  funext i
  rw [window_z, stream_pad_nil]

theorem window_z_append {R : Type} [CommRing R] (Cin B fs : ℕ) [NeZero B]
    [NeZero fs] (xs : List (Fin Cin → Fin B → R)) (x : Fin Cin → Fin B → R)
    (ci : Fin Cin) (j : ℤ) (hj : j + 1 ≤ (xs.length : ℤ)) :
    window_z Cin B fs (xs ++ [x]) ci j = window_z Cin B fs xs ci j := by
  funext i
  rw [window_z, window_z]
  refine stream_pad_append_left Cin B xs x ci _ ?_
  have hB : (1 : ℤ) ≤ (B : ℤ) := by exact_mod_cast Nat.pos_of_neZero B
  have hfs : (1 : ℤ) ≤ (fs : ℤ) := by exact_mod_cast Nat.pos_of_neZero fs
  have hi : (i.val : ℤ) < (fs : ℤ) := by exact_mod_cast i.isLt
  have hmul : (j + 1) * B ≤ (xs.length : ℤ) * B := by
    apply mul_le_mul_of_nonneg_right hj
    omega
  omega

theorem rfft_bins_zero {R : Type} [CommRing R] (fs : ℕ) (w : R)
    (m : Fin (num_bins fs)) : rfft_bins fs w (fun _ => 0) m = 0 := by
  simp [rfft_bins]

theorem emod_eq_of_sub_emod_zero (K : ℕ) (hK : 0 < K) (a : ℤ) (b : ℕ)
    (hb : b < K) (h : (a - b) % (K : ℤ) = 0) : a % (K : ℤ) = b := by
  rw [← Int.emod_eq_emod_iff_emod_sub_eq_zero] at h
  rw [h]
  exact Int.emod_eq_of_lt (by positivity) (by exact_mod_cast hb)

theorem j_idx_le (K : ℕ) (hK : 0 < K) (n p : ℤ) : j_idx K n p ≤ n - 1 := by
  have := Int.emod_nonneg (n - 1 - p) (by exact_mod_cast hK.ne' : (K : ℤ) ≠ 0)
  simp only [j_idx]
  omega

theorem j_idx_self (K n : ℕ) (hK : 0 < K) :
    j_idx K ((n + 1 : ℕ) : ℤ) ((n % K : ℕ) : ℤ) = (n : ℤ) := by
  have hdm : (K : ℤ) * ((n / K : ℕ) : ℤ) + ((n % K : ℕ) : ℤ) = (n : ℤ) := by
    exact_mod_cast congrArg (Nat.cast : ℕ → ℤ) (Nat.div_add_mod n K)
  simp only [j_idx]
  have h1 : ((n + 1 : ℕ) : ℤ) - 1 - ((n % K : ℕ) : ℤ) =
      (K : ℤ) * ((n / K : ℕ) : ℤ) := by
    push_cast at hdm ⊢
    omega
  rw [h1, Int.mul_emod_right]
  push_cast
  omega

theorem j_idx_other (K n p : ℕ) (hK : 0 < K) (hp : p < K) (hne : p ≠ n % K) :
    j_idx K ((n + 1 : ℕ) : ℤ) (p : ℤ) = j_idx K (n : ℤ) (p : ℤ) := by
  have hK2 : 2 ≤ K := by
    by_contra hcon
    have hK1 : K = 1 := by omega
    subst hK1
    exact hne (by omega)
  have hKz : (K : ℤ) ≠ 0 := by exact_mod_cast hK.ne'
  set r := ((n : ℤ) - 1 - p) % (K : ℤ) with hrdef
  have hr0 : 0 ≤ r := Int.emod_nonneg _ hKz
  have hrK : r < (K : ℤ) := Int.emod_lt_of_pos _ (by exact_mod_cast hK)
  have hsucc : ((n : ℤ) - p) % (K : ℤ) = (r + 1) % (K : ℤ) := by
    rw [show (n : ℤ) - p = ((n : ℤ) - 1 - p) + 1 by ring, Int.add_emod,
      Int.emod_eq_of_lt (by omega : (0 : ℤ) ≤ 1)
        (by exact_mod_cast hK2 : (1 : ℤ) < (K : ℤ)), ← hrdef]
  by_cases hlast : r = (K : ℤ) - 1
  · exfalso
    have hz : ((n : ℤ) - p) % (K : ℤ) = 0 := by
      rw [hsucc, hlast]
      simp
    have := emod_eq_of_sub_emod_zero K hK (n : ℤ) p hp hz
    have hcast : ((n % K : ℕ) : ℤ) = (n : ℤ) % (K : ℤ) := by
      rw [Int.natCast_mod]
    omega
  · have hlt : r + 1 < (K : ℤ) := by omega
    have hsucc2 : ((n : ℤ) - p) % (K : ℤ) = r + 1 := by
      rw [hsucc, Int.emod_eq_of_lt (by omega) hlt]
    simp only [j_idx]
    push_cast
    rw [show (n : ℤ) + 1 - 1 - p = (n : ℤ) - p by ring, hsucc2, ← hrdef]
    ring

theorem j_idx_mac (K n k : ℕ) (hK : 0 < K) (hk : k < K) :
    j_idx K ((n + 1 : ℕ) : ℤ) (((K + n % K - k) % K : ℕ) : ℤ) =
      (n : ℤ) - (k : ℤ) := by
  have hKz : (K : ℤ) ≠ 0 := by exact_mod_cast hK.ne'
  set pos : ℕ := (K + n % K - k) % K with hposdef
  have hposK : pos < K := Nat.mod_lt _ hK
  have hdm : (K : ℤ) * ((n / K : ℕ) : ℤ) + ((n % K : ℕ) : ℤ) = (n : ℤ) := by
    exact_mod_cast congrArg (Nat.cast : ℕ → ℤ) (Nat.div_add_mod n K)
  have hposcast : (pos : ℤ) = ((K : ℤ) + ((n % K : ℕ) : ℤ) - k) % (K : ℤ) := by
    rw [hposdef]
    rw [Int.natCast_mod]
    congr 1
    have hle : k ≤ K + n % K := by omega
    omega
  have hkey : (((n : ℤ) - pos) - k) % (K : ℤ) = 0 := by
    rw [show ((n : ℤ) - pos) - k = ((n : ℤ) - k) - pos by ring, Int.sub_emod,
      hposcast, Int.emod_emod_of_dvd _ (dvd_refl _), ← Int.sub_emod]
    rw [show (n : ℤ) - k - ((K : ℤ) + ((n % K : ℕ) : ℤ) - k) =
      ((n : ℤ) - ((n % K : ℕ) : ℤ)) - K by ring]
    rw [show (n : ℤ) - ((n % K : ℕ) : ℤ) = (K : ℤ) * ((n / K : ℕ) : ℤ) by omega]
    rw [show (K : ℤ) * ((n / K : ℕ) : ℤ) - K = (K : ℤ) * (((n / K : ℕ) : ℤ) - 1) by
      ring]
    exact Int.mul_emod_right _ _
  have hmod : ((n : ℤ) - pos) % (K : ℤ) = (k : ℤ) :=
    emod_eq_of_sub_emod_zero K hK _ k hk hkey
  simp only [j_idx]
  push_cast
  push_cast at hmod
  rw [show (n : ℤ) + 1 - 1 - pos = (n : ℤ) - pos by ring, hmod]
  ring

theorem raw_of_accepted {R : Type} [CommRing R] (Cin B : ℕ)
    (x : Fin Cin → Fin B → R) :
    signal_accepted Cin B (raw_of Cin B x) := ⟨Or.inl rfl, Or.inl rfl⟩

theorem raw_of_data {R : Type} [CommRing R] (Cin B : ℕ) (x : Fin Cin → Fin B → R) :
    (fun (ci : Fin Cin) (b : Fin B) => (raw_of Cin B x).data ci.val b.val) = x := by
  funext ci b
  simp only [raw_of]
  rw [dif_pos ⟨ci.isLt, b.isLt⟩]

theorem roll_update_closed {R : Type} [CommRing R] (Cin B fs : ℕ) [NeZero B]
    [NeZero fs] (hBfs : B ≤ fs) (xs : List (Fin Cin → Fin B → R))
    (x : Fin Cin → Fin B → R) :
    roll_update Cin B fs
      (fun ci i => stream_pad Cin B xs ci ((xs.length : ℤ) * B - fs + i.val)) x =
    fun ci i => stream_pad Cin B (xs ++ [x]) ci
      (((xs.length : ℤ) + 1) * B - fs + i.val) := by
  funext ci i
  have hB := Nat.pos_of_neZero B
  have hexp : ((xs.length : ℤ) + 1) * B = (xs.length : ℤ) * B + B := by ring
  simp only [roll_update]
  by_cases h : fs - B ≤ i.val
  · rw [dif_pos h]
    have hr : ((xs.length : ℤ) + 1) * B - fs + i.val =
        (xs.length : ℤ) * B + ((i.val - (fs - B) : ℕ) : ℤ) := by
      rw [hexp]
      push_cast [Nat.cast_sub h, Nat.cast_sub hBfs]
      ring
    rw [hr, stream_pad_append_at Cin B xs x ci (i.val - (fs - B))
      (by have := i.isLt; omega)]
  · rw [dif_neg h]
    have hlt : i.val + B < fs := by have := i.isLt; omega
    rw [stream_pad_append_left Cin B xs x ci _ (by
      have := i.isLt
      omega)]
    show stream_pad Cin B xs ci ((xs.length : ℤ) * B - fs + ((i.val + B) % fs : ℕ)) =
      stream_pad Cin B xs ci (((xs.length : ℤ) + 1) * B - fs + i.val)
    congr 1
    rw [Nat.mod_eq_of_lt hlt]
    push_cast
    ring

theorem write_fdl_closed {R : Type} [CommRing R] (Cin B fs K : ℕ) [NeZero B]
    [NeZero fs] [NeZero K] (w : R) (xs : List (Fin Cin → Fin B → R))
    (x : Fin Cin → Fin B → R) :
    write_fdl
      (fun (ci : Fin Cin) (m : Fin (num_bins fs)) (p : Fin K) => rfft_bins fs w
        (window_z Cin B fs xs ci (j_idx K (xs.length : ℤ) (p.val : ℤ))) m)
      (xs.length % K)
      (fun ci => rfft_bins fs w (window_z Cin B fs (xs ++ [x]) ci (xs.length : ℤ))) =
    fun (ci : Fin Cin) (m : Fin (num_bins fs)) (p : Fin K) => rfft_bins fs w
      (window_z Cin B fs (xs ++ [x]) ci
        (j_idx K (((xs.length + 1 : ℕ)) : ℤ) (p.val : ℤ))) m := by
  have hK := Nat.pos_of_neZero K
  funext ci m p
  simp only [write_fdl]
  by_cases hp : p.val = xs.length % K
  · rw [if_pos hp, hp, j_idx_self K xs.length hK]
  · rw [if_neg hp]
    rw [j_idx_other K xs.length p.val hK p.isLt hp]
    rw [window_z_append Cin B fs xs x ci _ (by
      have := j_idx_le K hK (xs.length : ℤ) (p.val : ℤ)
      omega)]

theorem run_state_closed {R : Type} [CommRing R] (C Cin B fs K FL : ℕ)
    [NeZero fs] [NeZero B] [NeZero Cin] [NeZero K] (fd : FFTData R)
    (hmode : Cin = 1 ∨ Cin = C) (h2B : 2 * B ≤ fs) (filt : Fin C → Fin FL → R)
    (xs : List (Fin Cin → Fin B → R)) :
    (run_engine C Cin B fs K fd hmode h2B
        (init_state C Cin FL B K fs fd.w filt) (xs.map (raw_of Cin B))).1 =
      ⟨create_filter_blocks C FL B K fs fd.w filt,
       fun ci i => stream_pad Cin B xs ci ((xs.length : ℤ) * B - fs + i.val),
       fun ci m p => rfft_bins fs fd.w
         (window_z Cin B fs xs ci (j_idx K (xs.length : ℤ) (p.val : ℤ))) m,
       xs.length % K⟩ := by
  induction xs using List.reverseRecOn with
  | nil =>
      simp only [List.map_nil, run_engine, List.foldl_nil, List.length_nil]
      rw [init_state]
      congr 1
      · funext ci i
        rw [stream_pad_neg Cin B [] ci _ (by have := i.isLt; omega)]
      · funext ci m p
        rw [window_z_nil, rfft_bins_zero]
  | append_singleton xs x ih =>
      simp only [List.map_append, List.map_cons, List.map_nil]
      rw [run_engine_append, ih,
        convolve_ok_eq C Cin B fs K fd hmode h2B _ _ (raw_of_accepted Cin B x)]
      simp only [List.length_append, List.length_cons, List.length_nil]
      rw [raw_of_data Cin B x]
      congr 1
      · rw [roll_update_closed Cin B fs (by omega) xs x]
        funext ci i
        congr 2
      · rw [roll_update_closed Cin B fs (by omega) xs x]
        rw [show (fun ci => rfft_bins fs fd.w
            (fun i => stream_pad Cin B (xs ++ [x]) ci
              (((xs.length : ℤ) + 1) * B - fs + i.val))) =
          fun ci => rfft_bins fs fd.w
            (window_z Cin B fs (xs ++ [x]) ci (xs.length : ℤ)) from rfl]
        rw [write_fdl_closed Cin B fs K fd.w xs x]
      · rw [Nat.mod_add_mod]

theorem output_fd_of_eq {R : Type} [CommRing R] (C Cin M K : ℕ) [NeZero Cin]
    (hmode : Cin = 1 ∨ Cin = C) (filters : Fin C → Fin M → Fin K → R)
    (fdl : Fin Cin → Fin M → Fin K → R) (cursor : ℕ) (c : Fin C) (m : Fin M) :
    output_fd_of hmode filters fdl cursor c m =
      ∑ k : Fin K, filters c m k * fdl (tap_channel C Cin hmode c) m
        ⟨(K + cursor - k.val) % K, Nat.mod_lt _ (by have := k.isLt; omega)⟩ := by
  by_cases h1 : Cin = 1
  · rw [output_fd_of, dif_pos h1, cpu_multiply_single_input]
    refine Finset.sum_congr rfl fun k _ => ?_
    congr 2
    rw [tap_channel, dif_pos h1]
  · rw [output_fd_of, dif_neg h1, cpu_multiply]
    refine Finset.sum_congr rfl fun k _ => ?_
    congr 2
    rw [tap_channel, dif_neg h1]

theorem stream_pad_conj {R : Type} [CommRing R] (Cin B : ℕ) [NeZero B]
    (conj : R →+* R) (ys : List (Fin Cin → Fin B → R))
    (hys : ∀ y ∈ ys, ∀ (ci : Fin Cin) (b : Fin B), conj (y ci b) = y ci b)
    (ci : Fin Cin) (t : ℤ) :
    conj (stream_pad Cin B ys ci t) = stream_pad Cin B ys ci t := by
  rw [stream_pad]
  by_cases h0 : 0 ≤ t
  · rw [if_pos h0]
    rcases Nat.lt_or_ge (t.toNat / B) ys.length with hlt | hge
    · rw [List.getD_eq_getElem _ _ hlt]
      exact hys _ (List.getElem_mem hlt) ci _
    · rw [List.getD_eq_default _ _ hge]
      exact map_zero conj
  · rw [if_neg h0]
    exact map_zero conj

theorem window_z_conj {R : Type} [CommRing R] (Cin B fs : ℕ) [NeZero B]
    (conj : R →+* R) (ys : List (Fin Cin → Fin B → R))
    (hys : ∀ y ∈ ys, ∀ (ci : Fin Cin) (b : Fin B), conj (y ci b) = y ci b)
    (ci : Fin Cin) (j : ℤ) (i : Fin fs) :
    conj (window_z Cin B fs ys ci j i) = window_z Cin B fs ys ci j i := by
  rw [window_z]
  exact stream_pad_conj Cin B conj ys hys ci _

theorem filters_padded_conj {R : Type} [CommRing R] (C FL B K fs : ℕ)
    (conj : R →+* R) (filt : Fin C → Fin FL → R)
    (hf : ∀ (c : Fin C) (t : Fin FL), conj (filt c t) = filt c t)
    (c : Fin C) (t : Fin fs) (k : Fin K) :
    conj (filters_padded C FL B K fs filt c t k) =
      filters_padded C FL B K fs filt c t k := by
  rw [filters_padded]
  by_cases ht : t.val < B
  · rw [dif_pos ht, filter_parts, padded_filter]
    by_cases hb : (t.val : ℕ) + B * k.val < FL
    · rw [dif_pos hb]
      exact hf c _
    · rw [dif_neg hb]
      exact map_zero conj
  · rw [dif_neg ht]
    exact map_zero conj

theorem circ_conv_tail {R : Type} [CommRing R] (C FL B K fs : ℕ) [NeZero fs]
    [NeZero B] (h2B : 2 * B ≤ fs) (filt : Fin C → Fin FL → R) (c : Fin C)
    (s : ℤ → R) (n : ℕ) (k : Fin K) (i : Fin B) :
    circ_conv fs (fun t => filters_padded C FL B K fs filt c t k)
        (fun idx => s (((n : ℤ) - k.val + 1) * B - fs + idx.val))
        ⟨fs - B + i.val, by have := i.isLt; have := Nat.pos_of_neZero B; omega⟩ =
      ∑ t : Fin B,
        (if h : k.val * B + t.val < FL then filt c ⟨k.val * B + t.val, h⟩ else 0) *
          s ((n : ℤ) * B + i.val - (k.val * B + t.val)) := by
  have hB := Nat.pos_of_neZero B
  have hBfs : B ≤ fs := by omega
  rw [circ_conv]
  have hterm : ∀ t : Fin fs,
      filters_padded C FL B K fs filt c t k *
        (fun idx => s (((n : ℤ) - k.val + 1) * B - fs + idx.val))
          ((⟨fs - B + i.val, by have := i.isLt; omega⟩ : Fin fs) - t) =
      if ht : t.val < B then
        (if h : k.val * B + t.val < FL then filt c ⟨k.val * B + t.val, h⟩ else 0) *
          s ((n : ℤ) * B + i.val - (k.val * B + t.val))
      else 0 := by
    intro t
    by_cases ht : t.val < B
    · rw [dif_pos ht]
      have hsubval : ((⟨fs - B + i.val, by have := i.isLt; omega⟩ : Fin fs) - t).val =
          fs - B + i.val - t.val := by
        rw [Fin.sub_def]
        show ((fs - t.val) + (fs - B + i.val)) % fs = fs - B + i.val - t.val
        have h1 := t.isLt
        have h2 := i.isLt
        have hge : fs ≤ (fs - t.val) + (fs - B + i.val) := by omega
        rw [Nat.mod_eq_sub_mod hge, Nat.mod_eq_of_lt (by omega)]
        omega
      have hpad : filters_padded C FL B K fs filt c t k =
          (if h : k.val * B + t.val < FL then filt c ⟨k.val * B + t.val, h⟩ else 0) := by
        rw [filters_padded, dif_pos ht, filter_parts, padded_filter]
        have hcomm : t.val + B * k.val = k.val * B + t.val := by ring
        rw [hcomm]
      rw [hpad]
      congr 1
      simp only [hsubval]
      have h1 := t.isLt
      have h2 := i.isLt
      have hcast : ((fs - B + i.val - t.val : ℕ) : ℤ) =
          (fs : ℤ) - B + i.val - t.val := by omega
      rw [hcast]
      push_cast
      ring
    · rw [filters_padded, dif_neg ht, zero_mul, dif_neg ht]
  rw [Finset.sum_congr rfl (fun t _ => hterm t)]
  rw [Fin.sum_univ_eq_sum_range (fun tv => if ht : tv < B then
    (if h : k.val * B + tv < FL then filt c ⟨k.val * B + tv, h⟩ else 0) *
      s ((n : ℤ) * B + i.val - (k.val * B + tv)) else 0) fs]
  rw [← Finset.sum_subset (Finset.range_subset.2 hBfs)
    (fun tv _ htv => by
      rw [Finset.mem_range] at htv
      rw [dif_neg htv])]
  rw [Fin.sum_univ_eq_sum_range (fun tv =>
    (if h : k.val * B + tv < FL then filt c ⟨k.val * B + tv, h⟩ else 0) *
      s ((n : ℤ) * B + i.val - (k.val * B + tv))) B]
  refine Finset.sum_congr rfl fun tv htv => ?_
  rw [Finset.mem_range] at htv
  rw [dif_pos htv]

theorem partition_sum_eq_lin_conv {R : Type} [CommRing R] (C FL B K : ℕ)
    [NeZero B] (hKB : FL ≤ K * B) (filt : Fin C → Fin FL → R) (c : Fin C)
    (s : ℤ → R) (T : ℤ) :
    (∑ k : Fin K, ∑ t : Fin B,
      (if h : k.val * B + t.val < FL then filt c ⟨k.val * B + t.val, h⟩ else 0) *
        s (T - (k.val * B + t.val))) = lin_conv FL (filt c) s T := by
  have hsummand : ∀ (k : Fin K) (t : Fin B),
      (if h : k.val * B + t.val < FL then filt c ⟨k.val * B + t.val, h⟩ else 0) *
        s (T - (k.val * B + t.val)) =
      (fun τv : ℕ => (if h : τv < FL then filt c ⟨τv, h⟩ else 0) * s (T - τv))
        (k.val * B + t.val) := by
    intro k t
    simp only
    have harg : T - ((k.val : ℤ) * B + (t.val : ℤ)) =
        T - ((k.val * B + t.val : ℕ) : ℤ) := by
      push_cast
      ring
    rw [harg]
  rw [Finset.sum_congr rfl (fun k _ =>
    Finset.sum_congr rfl (fun t _ => hsummand k t))]
  have hpair : (∑ p : Fin K × Fin B,
      (fun τv : ℕ => (if h : τv < FL then filt c ⟨τv, h⟩ else 0) * s (T - τv))
        (p.1.val * B + p.2.val)) =
      ∑ k : Fin K, ∑ t : Fin B,
        (fun τv : ℕ => (if h : τv < FL then filt c ⟨τv, h⟩ else 0) * s (T - τv))
          (k.val * B + t.val) := Fintype.sum_prod_type _
  rw [← hpair]
  have hcomp : (∑ p : Fin K × Fin B,
      (fun τv : ℕ => (if h : τv < FL then filt c ⟨τv, h⟩ else 0) * s (T - τv))
        (p.1.val * B + p.2.val)) =
      ∑ τ : Fin (K * B),
        (fun τv : ℕ => (if h : τv < FL then filt c ⟨τv, h⟩ else 0) * s (T - τv))
          τ.val :=
    Fintype.sum_equiv finProdFinEquiv _ _ (fun p => by
      have hv : (finProdFinEquiv p).val = p.2.val + B * p.1.val := by
        simp [finProdFinEquiv]
      rw [hv, show p.1.val * B + p.2.val = p.2.val + B * p.1.val from by ring])
  rw [hcomp]
  rw [Fin.sum_univ_eq_sum_range
    (fun τv => (if h : τv < FL then filt c ⟨τv, h⟩ else 0) * s (T - τv)) (K * B)]
  rw [← Finset.sum_subset (Finset.range_subset.2 hKB)
    (fun τv _ hτv => by
      rw [Finset.mem_range] at hτv
      rw [dif_neg hτv, zero_mul])]
  rw [← Fin.sum_univ_eq_sum_range
    (fun τv => (if h : τv < FL then filt c ⟨τv, h⟩ else 0) * s (T - τv)) FL]
  rw [lin_conv]
  refine Finset.sum_congr rfl fun τ _ => ?_
  rw [dif_pos τ.isLt]

theorem expected_block_append {R : Type} [CommRing R] (C Cin B FL : ℕ)
    [NeZero Cin] [NeZero B] (hmode : Cin = 1 ∨ Cin = C)
    (filt : Fin C → Fin FL → R) (xs : List (Fin Cin → Fin B → R))
    (x : Fin Cin → Fin B → R) (j : ℕ) (hj : j < xs.length) :
    expected_block C Cin B FL hmode filt (xs ++ [x]) j =
      expected_block C Cin B FL hmode filt xs j := by
  funext c i
  simp only [expected_block, lin_conv]
  refine Finset.sum_congr rfl fun τ _ => ?_
  congr 1
  refine stream_pad_append_left Cin B xs x _ _ ?_
  have hi : (i.val : ℤ) < (B : ℤ) := by exact_mod_cast i.isLt
  have hτ : (0 : ℤ) ≤ (τ.val : ℤ) := Int.natCast_nonneg _
  have hcast : ((j * B + i.val : ℕ) : ℤ) = (j : ℤ) * B + i.val := by
    push_cast
    ring
  have hjz : (j : ℤ) + 1 ≤ (xs.length : ℤ) := by exact_mod_cast hj
  have hB : (0 : ℤ) < (B : ℤ) := by exact_mod_cast Nat.pos_of_neZero B
  have hmul : ((j : ℤ) + 1) * (B : ℤ) ≤ (xs.length : ℤ) * B :=
    mul_le_mul_of_nonneg_right hjz (le_of_lt hB)
  have hexp : ((j : ℤ) + 1) * (B : ℤ) = (j : ℤ) * B + B := by ring
  rw [hexp] at hmul
  omega

theorem convolve_output_closed {R : Type} [CommRing R] (C Cin B fs K FL : ℕ)
    [NeZero fs] [NeZero B] [NeZero Cin] [NeZero K] (fd : FFTData R)
    (hmode : Cin = 1 ∨ Cin = C) (h2B : 2 * B ≤ fs)
    (heven : fs = irfft_len fs) (hu : fd.u = fd.w) (hw : fd.w ^ fs = 1)
    (horth : ∀ d : ℕ, 0 < d → d < fs → (∑ m : Fin fs, fd.w ^ (m.val * d)) = 0)
    (hinv : fd.invL * (fs : R) = 1) (hcw : fd.conj fd.w * fd.w = 1)
    (hKB : FL ≤ K * B) (filt : Fin C → Fin FL → R)
    (hf : ∀ (c : Fin C) (t : Fin FL), fd.conj (filt c t) = filt c t)
    (xs : List (Fin Cin → Fin B → R)) (x : Fin Cin → Fin B → R)
    (hxx : ∀ y ∈ xs ++ [x], ∀ (ci : Fin Cin) (b : Fin B),
      fd.conj (y ci b) = y ci b) :
    (convolve C Cin B fs K fd hmode h2B
        (run_engine C Cin B fs K fd hmode h2B
          (init_state C Cin FL B K fs fd.w filt) (xs.map (raw_of Cin B))).1
        (raw_of Cin B x)).2 =
      Except.ok (expected_block C Cin B FL hmode filt (xs ++ [x]) xs.length) := by
  have hB := Nat.pos_of_neZero B
  have hK := Nat.pos_of_neZero K
  have hst := run_state_closed C Cin B fs K FL fd hmode h2B filt xs
  have hA : (run_engine C Cin B fs K fd hmode h2B
      (init_state C Cin FL B K fs fd.w filt) (xs.map (raw_of Cin B))).1.filters_fd =
      create_filter_blocks C FL B K fs fd.w filt := by rw [hst]
  have hbuf : (run_engine C Cin B fs K fd hmode h2B
      (init_state C Cin FL B K fs fd.w filt)
      (xs.map (raw_of Cin B))).1.input_buffer_td =
      fun ci i => stream_pad Cin B xs ci ((xs.length : ℤ) * B - fs + i.val) := by
    rw [hst]
  have hfdl : (run_engine C Cin B fs K fd hmode h2B
      (init_state C Cin FL B K fs fd.w filt) (xs.map (raw_of Cin B))).1.fdl =
      fun ci m p => rfft_bins fs fd.w
        (window_z Cin B fs xs ci (j_idx K (xs.length : ℤ) (p.val : ℤ))) m := by
    rw [hst]
  have hcur : (run_engine C Cin B fs K fd hmode h2B
      (init_state C Cin FL B K fs fd.w filt)
      (xs.map (raw_of Cin B))).1.fdl_cursor = xs.length % K := by rw [hst]
  rw [convolve_ok_eq C Cin B fs K fd hmode h2B _ _ (raw_of_accepted Cin B x),
    hA, hbuf, hfdl, hcur, raw_of_data Cin B x,
    roll_update_closed Cin B fs (by omega) xs x]
  rw [show (fun ci => rfft_bins fs fd.w
      ((fun ci i => stream_pad Cin B (xs ++ [x]) ci
        (((xs.length : ℤ) + 1) * B - fs + i.val)) ci)) =
    fun ci => rfft_bins fs fd.w
      (window_z Cin B fs (xs ++ [x]) ci (xs.length : ℤ)) from rfl]
  rw [write_fdl_closed Cin B fs K fd.w xs x]
  show Except.ok _ = Except.ok _
  congr 1
  funext c i
  have hlt1 : irfft_len fs - B + i.val < fs := by
    have h1 := i.isLt
    rw [← heven]
    omega
  have hlt2 : fs - B + i.val < fs := by
    have h1 := i.isLt
    omega
  have hMfs : num_bins fs ≤ fs := by
    have h2 : 0 < fs := Nat.pos_of_neZero fs
    have h3 : fs / 2 < fs := Nat.div_lt_self h2 (by omega)
    simp only [num_bins]
    omega
  have hY : output_fd_of hmode (create_filter_blocks C FL B K fs fd.w filt)
      (fun ci m p => rfft_bins fs fd.w
        (window_z Cin B fs (xs ++ [x]) ci
          (j_idx K ((xs.length + 1 : ℕ) : ℤ) (p.val : ℤ))) m)
      (xs.length % K) c =
      fun m => ∑ k : Fin K,
        rfft_bins fs fd.w (fun t => filters_padded C FL B K fs filt c t k) m *
        rfft_bins fs fd.w (window_z Cin B fs (xs ++ [x])
          (tap_channel C Cin hmode c)
          ((xs.length : ℤ) - (k.val : ℤ))) m := by
    funext m
    rw [output_fd_of_eq C Cin (num_bins fs) K hmode _ _ _ c m]
    refine Finset.sum_congr rfl fun k _ => ?_
    show create_filter_blocks C FL B K fs fd.w filt c m k *
        rfft_bins fs fd.w (window_z Cin B fs (xs ++ [x])
          (tap_channel C Cin hmode c)
          (j_idx K ((xs.length + 1 : ℕ) : ℤ)
            (((K + xs.length % K - k.val) % K : ℕ) : ℤ))) m = _
    rw [j_idx_mac K xs.length k.val hK k.isLt]
    rfl
  rw [irfft_torch_eq_spec fs heven fd.u fd.w fd.invL hu fd.conj, hY]
  show spec_irfft_n fs fd.w fd.invL fd.conj _ ⟨irfft_len fs - B + i.val, hlt1⟩ = _
  rw [show (⟨irfft_len fs - B + i.val, hlt1⟩ : Fin fs) =
      ⟨fs - B + i.val, hlt2⟩ from Fin.ext (by
    show irfft_len fs - B + i.val = fs - B + i.val
    rw [← heven])]
  rw [spec_irfft_of_sum_products fs K fd.w fd.invL fd.conj hw horth hinv hcw hMfs
    (fun k => fun t => filters_padded C FL B K fs filt c t k)
    (fun k => window_z Cin B fs (xs ++ [x]) (tap_channel C Cin hmode c)
      ((xs.length : ℤ) - (k.val : ℤ)))
    (fun k t => filters_padded_conj C FL B K fs fd.conj filt hf c t k)
    (fun k t => window_z_conj Cin B fs fd.conj (xs ++ [x]) hxx
      (tap_channel C Cin hmode c) ((xs.length : ℤ) - (k.val : ℤ)) t)]
  have hcc : ∀ k : Fin K,
      circ_conv fs (fun t => filters_padded C FL B K fs filt c t k)
        (window_z Cin B fs (xs ++ [x]) (tap_channel C Cin hmode c)
          ((xs.length : ℤ) - (k.val : ℤ)))
        ⟨fs - B + i.val, hlt2⟩ =
      ∑ t : Fin B,
        (if h : k.val * B + t.val < FL then filt c ⟨k.val * B + t.val, h⟩ else 0) *
          stream_pad Cin B (xs ++ [x]) (tap_channel C Cin hmode c)
            ((xs.length : ℤ) * B + i.val - (k.val * B + t.val)) := by
    intro k
    exact circ_conv_tail C FL B K fs h2B filt c
      (stream_pad Cin B (xs ++ [x]) (tap_channel C Cin hmode c)) xs.length k i
  rw [Finset.sum_congr rfl (fun k _ => hcc k)]
  rw [partition_sum_eq_lin_conv C FL B K hKB filt c
    (stream_pad Cin B (xs ++ [x]) (tap_channel C Cin hmode c))
    ((xs.length : ℤ) * B + i.val)]
  simp only [expected_block]
  congr 1

/-- C1 (amended to even FFT size): over any commutative ring with exact
FFT scalars (a root `w` of order `fft_size` with the character-sum
orthogonality, an exact inverse scale, and a conjugation fixing the real
filter taps and input samples — the exact-arithmetic reading of "within
floating-point FFT roundoff"), and with an even `fft_size` (which includes
the default `fft_size = 2*B`), the engine started from a fresh state
returns, for every sequence of accepted input blocks, one `Ok` block per
call, and the `j`-th returned block is samples `[j*B, (j+1)*B)` of the
linear convolution of each output channel's filter with the concatenation
of all inputs received so far.  (For odd permitted `fft_size` the claim
fails — see the counterexample.) -/
theorem claim_C1_convolution {R : Type} [CommRing R] (C Cin B fs K FL : ℕ)
    [NeZero fs] [NeZero B] [NeZero Cin] [NeZero K] (fd : FFTData R)
    (hmode : Cin = 1 ∨ Cin = C) (h2B : 2 * B ≤ fs)
    (heven : fs = irfft_len fs) (hu : fd.u = fd.w) (hw : fd.w ^ fs = 1)
    (horth : ∀ d : ℕ, 0 < d → d < fs → (∑ m : Fin fs, fd.w ^ (m.val * d)) = 0)
    (hinv : fd.invL * (fs : R) = 1) (hcw : fd.conj fd.w * fd.w = 1)
    (hKB : FL ≤ K * B) (filt : Fin C → Fin FL → R)
    (hf : ∀ (c : Fin C) (t : Fin FL), fd.conj (filt c t) = filt c t)
    (xs : List (Fin Cin → Fin B → R))
    (hxs : ∀ y ∈ xs, ∀ (ci : Fin Cin) (b : Fin B), fd.conj (y ci b) = y ci b) :
    (run_engine C Cin B fs K fd hmode h2B
        (init_state C Cin FL B K fs fd.w filt) (xs.map (raw_of Cin B))).2 =
      (List.range xs.length).map
        (fun j => Except.ok (expected_block C Cin B FL hmode filt xs j)) := by
  induction xs using List.reverseRecOn with
  | nil => simp [run_engine]
  | append_singleton xs x ih =>
      have hxs' : ∀ y ∈ xs, ∀ (ci : Fin Cin) (b : Fin B),
          fd.conj (y ci b) = y ci b :=
        fun y hy => hxs y (List.mem_append_left _ hy)
      simp only [List.map_append, List.map_cons, List.map_nil]
      rw [run_engine_append, ih hxs']
      rw [convolve_output_closed C Cin B fs K FL fd hmode h2B heven hu hw horth
        hinv hcw hKB filt hf xs x hxs]
      rw [List.length_append, List.length_cons, List.length_nil,
        List.range_succ, List.map_append, List.map_cons, List.map_nil]
      show List.map (fun j => Except.ok (expected_block C Cin B FL hmode filt xs j))
          (List.range xs.length) ++
        [Except.ok (expected_block C Cin B FL hmode filt (xs ++ [x]) xs.length)] = _
      congr 1
      refine List.map_congr_left fun j hj => ?_
      rw [List.mem_range] at hj
      rw [expected_block_append C Cin B FL hmode filt xs x j hj]

/-- Witness for C1 at scenario S1 (`C = Cin = 1`, `FL = 4`, `B = 2`, filter
`[1,2,3,4]`, inputs `[1,0]`, `[0,0]`, `[0,0]`) over the Gaussian rationals
with the order-4 root `-i`: the theorem instantiates at the even default
`fft_size = 4`, and the expected blocks evaluate concretely to `[1,2]`,
`[3,4]`, `[0,0]` — so the three calls return exactly those blocks. -/
theorem claim_C1_convolution_witness :
    ((2 * 2 ≤ 4) ∧ (4 = irfft_len 4) ∧ (4 ≤ 2 * 2) ∧
      fft4_data.w ^ 4 = 1 ∧ fft4_data.invL * (4 : Quad (-1) 0) = 1 ∧
      fft4_data.conj fft4_data.w * fft4_data.w = 1) ∧
    (run_engine 1 1 2 4 2 fft4_data (Or.inl rfl) (by omega)
        (init_state 1 1 4 2 2 4 fft4_data.w s1_filter)
        (s1_inputs.map (raw_of 1 2))).2 =
      (List.range s1_inputs.length).map
        (fun j => Except.ok
          (expected_block 1 1 2 4 (Or.inl rfl) s1_filter s1_inputs j)) ∧
    (List.range s1_inputs.length).map
        (fun j => (Except.ok
          (expected_block 1 1 2 4 (Or.inl rfl) s1_filter s1_inputs j) :
            Except String (Fin 1 → Fin 2 → Quad (-1) 0))) =
      [Except.ok (fun _ i => if i.val = 0 then 1 else 2),
       Except.ok (fun _ i => if i.val = 0 then 3 else 4),
       Except.ok (fun _ _ => 0)] :=
  ⟨⟨by omega, by decide, by omega, by with_unfolding_all decide,
    by with_unfolding_all decide, by with_unfolding_all decide⟩,
   claim_C1_convolution 1 1 2 4 2 4 fft4_data (Or.inl rfl) (by omega)
     (by decide) rfl (by with_unfolding_all decide)
     (by
       intro d h1 h2
       interval_cases d <;> with_unfolding_all decide)
     (by with_unfolding_all decide) (by with_unfolding_all decide) (by omega)
     s1_filter (by with_unfolding_all decide) s1_inputs
     (by with_unfolding_all decide),
   by with_unfolding_all decide⟩

/-- Counterexample for C1 as stated ("for every sequence of accepted input
blocks"): at the permitted odd FFT size `fft_size = 3` (the constructor
accepts it: `3 ≥ 2*B` with `B = 1`), the identity-filter engine fed the
blocks `[1]`, `[1]` does not return the linear convolution `[1]`, `[1]` —
its second block is `[3/2]` — even though the root `zeta3` is an exact
order-3 FFT root (its character sums vanish and conjugation inverts it).
The defect is the one recorded under C5: `torch.fft.irfft` inverts a
length-`2*(num_bins-1) = 2` transform at odd `N`. -/
theorem claim_C1_counterexample :
    (engine_init 1 1 1 (Option.some 3) 1 "cpu" = Except.ok ⟨1, 3, 2⟩ ∧
      fft3_data.w ^ 3 = 1 ∧
      (∑ m : Fin 3, fft3_data.w ^ (m.val * 1)) = 0 ∧
      (∑ m : Fin 3, fft3_data.w ^ (m.val * 2)) = 0 ∧
      fft3_data.conj fft3_data.w * fft3_data.w = 1 ∧
      third3 * (3 : Quad (-1) (-1)) = 1) ∧
    (List.range 2).map (fun j => (Except.ok
        (expected_block 1 1 1 1 (Or.inl rfl) (fun _ _ => 1)
          [fun _ _ => 1, fun _ _ => 1] j) :
        Except String (Fin 1 → Fin 1 → Quad (-1) (-1)))) =
      [Except.ok (fun _ _ => 1), Except.ok (fun _ _ => 1)] ∧
    (run_engine 1 1 1 3 1 fft3_data (Or.inl rfl) (by omega) st0_odd
        ([fun _ _ => 1, fun _ _ => 1].map (raw_of 1 1))).2 =
      [Except.ok (fun _ _ => (⟨1, 1/2⟩ : Quad (-1) (-1))),
       Except.ok (fun _ _ => (⟨3/2, 0⟩ : Quad (-1) (-1)))] ∧
    (run_engine 1 1 1 3 1 fft3_data (Or.inl rfl) (by omega) st0_odd
        ([fun _ _ => 1, fun _ _ => 1].map (raw_of 1 1))).2 ≠
      (List.range 2).map (fun j => Except.ok
        (expected_block 1 1 1 1 (Or.inl rfl) (fun _ _ => 1)
          [fun _ _ => 1, fun _ _ => 1] j)) := by
  refine ⟨⟨?_, ?_, ?_, ?_, ?_, ?_⟩, ?_, ?_, ?_⟩ <;> with_unfolding_all decide
